import Mathlib

/-!
Verification of the mantaray compressed-radix trie (ethersphere/manifest).

The in-memory trie model below is a shallow embedding of
`mantaray/node.go`: `Node` carries `nodeType`, `nonce`, `ref`, `entry`
and the fork table, a fork being a (key, prefix, child) triple keyed by
the first byte of its prefix (a Go `map[byte]*fork`, modelled as an
association structure with unique keys).  Bytes are modelled as `Nat`;
the trie operations only compare bytes for equality.  The model covers
fully materialized tries: the `n.forks == nil` lazy-load branch of the
Go code never fires for tries built in memory (`New` allocates the fork
map and every node the operations create has one), so the operations
below omit it; the post-save "forks set to nil" state is modelled by an
empty fork table, which is observationally equal for lookups (a Go nil
map reads as empty).
-/

mutual

inductive Node where
  | mk (nodeType : Nat) (nonce : List Nat) (ref : Option (List Nat))
      (entry : List Nat) (forks : Forks)

inductive Forks where
  | nil
  | cons (key : Nat) (pfx : List Nat) (child : Node) (rest : Forks)

end

def Node.nodeType : Node → Nat
  | .mk t _ _ _ _ => t

def Node.nonce : Node → List Nat
  | .mk _ nc _ _ _ => nc

def Node.ref : Node → Option (List Nat)
  | .mk _ _ r _ _ => r

def Node.entry : Node → List Nat
  | .mk _ _ _ e _ => e

def Node.forks : Node → Forks
  | .mk _ _ _ _ fks => fks

/-- Constructor `New()`: fresh in-memory node with an empty fork map. -/
def newNode : Node := .mk 0 [] none [] .nil

/-- Constructor `NewNodeRef(ref)`: reference stub. -/
def newNodeRef (r : List Nat) : Node := .mk 0 [] (some r) [] .nil

/-- Node type flag bits from `node.go`. -/
def nodeTypeValue : Nat := 2

def nodeTypeEdge : Nat := 4

def nodeTypeWithPathSeparator : Nat := 8

def nodeTypeMask : Nat := 255

def Node.isValueType (n : Node) : Bool :=
  n.nodeType &&& nodeTypeValue == nodeTypeValue

def Node.isEdgeType (n : Node) : Bool :=
  n.nodeType &&& nodeTypeEdge == nodeTypeEdge

def Node.isWithPathSeparatorType (n : Node) : Bool :=
  n.nodeType &&& nodeTypeWithPathSeparator == nodeTypeWithPathSeparator

def makeValue : Node → Node
  | .mk t nc r e fks => .mk (t ||| nodeTypeValue) nc r e fks

def makeEdge : Node → Node
  | .mk t nc r e fks => .mk (t ||| nodeTypeEdge) nc r e fks

def makeWithPathSeparator : Node → Node
  | .mk t nc r e fks => .mk (t ||| nodeTypeWithPathSeparator) nc r e fks

def makeNotWithPathSeparator : Node → Node
  | .mk t nc r e fks => .mk ((nodeTypeMask ^^^ nodeTypeWithPathSeparator) &&& t) nc r e fks

def setForksN : Node → Forks → Node
  | .mk t nc r e _, fks => .mk t nc r e fks

def setRefN : Node → Option (List Nat) → Node
  | .mk t nc _ e fks, r => .mk t nc r e fks

/-- PathSeparator constant `'/'`. -/
def pathSeparator : Nat := 47

/-- Helper `updateIsWithPathSeparator`: sets the flag when the path
contains a separator at an index greater than 0 (`bytes.IndexRune(path,
PathSeparator) > 0`), clears it otherwise. -/
def updateWPS (n : Node) (path : List Nat) : Node :=
  match path.findIdx? (fun b => b == pathSeparator) with
  | some i => if 0 < i then makeWithPathSeparator n else makeNotWithPathSeparator n
  | none => makeNotWithPathSeparator n

/-- Fork-map read `n.forks[b]`. -/
def findFork : Forks → Nat → Option (List Nat × Node)
  | .nil, _ => none
  | .cons k pfx child rest, b => if k = b then some (pfx, child) else findFork rest b

/-- Fork-map write `n.forks[b] = &fork{pfx, child}`. -/
def setFork : Forks → Nat → List Nat → Node → Forks
  | .nil, b, pfx, child => .cons b pfx child .nil
  | .cons k p c rest, b, pfx, child =>
    if k = b then .cons k pfx child rest else .cons k p c (setFork rest b pfx child)

/-- Fork-map delete `delete(n.forks, b)`. -/
def delFork : Forks → Nat → Forks
  | .nil, _ => .nil
  | .cons k p c rest, b => if k = b then rest else .cons k p c (delFork rest b)

def keysF : Forks → List Nat
  | .nil => []
  | .cons k _ _ rest => k :: keysF rest

/-- Longest common prefix, as `common` in `node.go`. -/
def common : List Nat → List Nat → List Nat
  | a :: as, b :: bs => if a = b then a :: common as bs else []
  | _, _ => []

/-- Fresh leaf carrying the entry (`nn := New(); nn.entry = entry;
nn.makeValue(); nn.updateIsWithPathSeparator(path)`). -/
def newLeaf (path entry : List Nat) : Node :=
  updateWPS (makeValue (.mk 0 [] none entry .nil)) path

/-- Intermediate node of an edge split: the previous child moves under
a fork keyed by `rest[0]` (`rest.headI`; the branch is only taken on a
non-empty `rest`) and labelled with the residue of its old prefix. -/
def splitNode (rest : List Nat) (child : Node) : Node :=
  makeEdge (.mk 0 [] none [] (.cons rest.headI rest (updateWPS child rest) .nil))

/-- One step of `Node.Add` recursion, with explicit fuel.  The Go
function recurses on the residual path; every recursive call strips at
least one byte whenever the fork invariant (`forks[k].prefix[0] == k`,
prefixes non-empty) holds, so `fuel = path.length` suffices for
well-formed tries, which the lemmas below assume.  On fuel exhaustion
(reachable only on malformed forks, where the Go code would not
terminate) the node is returned unchanged. -/
def addF : Nat → Node → List Nat → List Nat → Node
  | _, .mk t nc _ _ fks, [], entry => .mk t nc none entry fks
  | 0, n, _ :: _, _ => n
  | fuel + 1, .mk t nc r e fks, b :: p, entry =>
    match findFork fks b with
    | none =>
      if 32 < (b :: p).length then
        makeEdge (.mk t nc r e (setFork fks b ((b :: p).take 32)
          (updateWPS (addF fuel newNode ((b :: p).drop 32) entry) ((b :: p).take 32))))
      else
        makeEdge (.mk t nc r e (setFork fks b (b :: p) (newLeaf (b :: p) entry)))
    | some (pfx, child) =>
      let c := common pfx (b :: p)
      let nn :=
        if pfx.drop c.length = [] then child
        else splitNode (pfx.drop c.length) child
      makeEdge (.mk t nc r e (setFork fks b c
        (addF fuel (updateWPS nn (b :: p)) ((b :: p).drop c.length) entry)))

/-- `Node.Add(path, entry, ls)` on an in-memory trie (nil loader). -/
def add (n : Node) (path entry : List Nat) : Node :=
  addF path.length n path entry

/-- `Node.LookupNode` with fuel; `none` is `ErrNotFound` (and, on
malformed forks only, fuel exhaustion where Go would not terminate). -/
def lookupNF : Nat → Node → List Nat → Option Node
  | _, n, [] => some n
  | 0, _, _ :: _ => none
  | fuel + 1, n, b :: p =>
    let path := b :: p
    match findFork n.forks b with
    | none => none
    | some (pfx, child) =>
      let c := common pfx path
      if c.length = pfx.length then lookupNF fuel child (path.drop c.length) else none

/-- `Node.LookupNode(path, l)` on an in-memory trie. -/
def lookupN (n : Node) (path : List Nat) : Option Node :=
  lookupNF path.length n path

/-- `Node.Lookup(path, l)`: the entry of the node found. -/
def lookupE (n : Node) (path : List Nat) : Option (List Nat) :=
  (lookupN n path).map Node.entry

inductive ErrGo where
  | notFound
  | emptyPath
  | stuck
  deriving DecidableEq, Repr

/-- `Node.Remove` with fuel.  `.stuck` marks fuel exhaustion, reachable
only on malformed forks where the Go code would not terminate.  The Go
test `bytes.Index(path, f.prefix) != 0` holds exactly when `f.prefix`
is not a prefix of `path`, so it is modelled with `List.isPrefixOf`. -/
def removeF : Nat → Node → List Nat → Except ErrGo Node
  | _, _, [] => .error .emptyPath
  | 0, _, _ :: _ => .error .stuck
  | fuel + 1, n, b :: p =>
    let path := b :: p
    match findFork n.forks b with
    | none => .error .notFound
    | some (pfx, child) =>
      if pfx.isPrefixOf path then
        let rest := path.drop pfx.length
        if rest = [] then .ok (setForksN n (delFork n.forks b))
        else
          match removeF fuel child rest with
          | .error err => .error err
          | .ok child2 => .ok (setForksN n (setFork n.forks b pfx child2))
      else .error .notFound

/-- `Node.Remove(path, ls)` on an in-memory trie. -/
def removeE (n : Node) (path : List Nat) : Except ErrGo Node :=
  removeF path.length n path

/-- Fork invariant of the Go map: each fork's key equals the first byte
of its (non-empty) prefix, keys are unique, and children are
well-formed. -/
def wfFs : Forks → Bool
  | .nil => true
  | .cons k pfx (.mk _ _ _ _ cfks) rest =>
    (pfx.head? == some k) && !(keysF rest).contains k && wfFs cfks && wfFs rest

def wfB (n : Node) : Bool := wfFs n.forks

/-- Building a trie by a sequence of `Add` calls on a fresh root. -/
def buildTrie (ps : List (List Nat × List Nat)) : Node :=
  ps.foldl (fun n pe => add n pe.1 pe.2) newNode

/-- Fork-prefix length bound: every prefix in the trie has length at
most `m`. -/
def boundFs (m : Nat) : Forks → Bool
  | .nil => true
  | .cons _ pfx (.mk _ _ _ _ cfks) rest =>
    decide (pfx.length ≤ m) && boundFs m cfks && boundFs m rest

def boundB (m : Nat) (n : Node) : Bool := boundFs m n.forks

/-- Erase every node-type bitmask in the trie (used to state that
`Lookup` never consults the type flags). -/
def stripFs : Forks → Forks
  | .nil => .nil
  | .cons k pfx (.mk _ nc r e cfks) rest =>
    .cons k pfx (.mk 0 nc r e (stripFs cfks)) (stripFs rest)

def stripN : Node → Node
  | .mk _ nc r e fks => .mk 0 nc r e (stripFs fks)

/-!
Bitmap-256 (`bitsForBytes` in `marshal.go`): a 32-byte dense set over
byte values; `set` ORs bit `k % 8` of byte `k / 8`, `iter` visits set
bits in ascending order.  `bitmapByte` computes the final value of one
byte of the bitmap after all `set` calls (the order of the calls does
not affect the result of repeated ORs). -/

def bitmapByte (keys : List Nat) (j : Nat) : Nat :=
  ((List.range 8).filter (fun i => keys.contains (8 * j + i))).foldl
    (fun a i => a ||| (1 <<< i)) 0

def bitmapOfKeys (keys : List Nat) : List Nat :=
  (List.range 32).map (bitmapByte keys)

/-- Bit test `(bb.bits[i/8] >> (i%8)) & 1 > 0`. -/
def testBitmap (bm : List Nat) (k : Nat) : Bool :=
  (bm.getD (k / 8) 0) >>> (k % 8) &&& 1 == 1

/-- Ascending iteration over the set bits (`bitsForBytes.iter`). -/
def iterKeys (bm : List Nat) : List Nat :=
  (List.range 256).filter (fun k => testBitmap bm k)

/-!
Persist engine (`Node.save` in the persist source file) together with
the first, pre-obfuscation wire format of `marshal.go` that its
`MarshalBinary` call pairs with: 32-byte entry, 32-byte fork bitmap,
one 64-byte-or-less block per fork (prefix padded with `'/'` to 32
bytes followed by the child's reference bytes, which contribute nothing
when the child has no reference), then one node-type byte per fork.
`MarshalBinary`'s `ErrInvalid` on a nil fork map is unrepresentable in
the materialized model (a nil map is modelled as an empty fork table)
and is not reached in the modelled scenarios. -/

def prefixSlash32 (pfx : List Nat) : List Nat :=
  pfx ++ List.replicate (32 - pfx.length) pathSeparator

def forkBlockV0 (pfx : List Nat) (child : Node) : List Nat :=
  prefixSlash32 pfx ++ (child.ref).getD []

def marshalV0 (n : Node) : List Nat :=
  let bm := bitmapOfKeys (keysF n.forks)
  let ks := iterKeys bm
  let entry32 := (n.entry ++ List.replicate 32 0).take 32
  let blocks := ks.foldr
    (fun k acc =>
      (match findFork n.forks k with
       | some pc => forkBlockV0 pc.1 pc.2
       | none => []) ++ acc) []
  let types := ks.map
    (fun k => match findFork n.forks k with | some pc => pc.2.nodeType | none => 0)
  entry32 ++ bm ++ blocks ++ types

/-- Persist one node whose children have already been saved: marshal it
and hand the bytes to the saver.  On saver failure the error is sent to
`errc` and `closed` is closed; in both cases the Go code then executes
`n.forks = nil` (modelled as the empty fork table, observationally
equal for lookups with a nil loader). -/
def persistStep (σ : List Nat → Option (List Nat)) (n : Node) (closed : Bool) :
    Node × Bool :=
  if closed then (n, closed)
  else
    match σ (marshalV0 n) with
    | some r => (setForksN (setRefN n (some r)) .nil, closed)
    | none => (setForksN (setRefN n none) .nil, true)

/-- Recursive save of the fork children of a node (`n.save` spawns one
goroutine per fork; modelled as one sequential schedule threading the
`closed` flag).  A child with a non-empty reference returns at once;
otherwise its own children are saved first, then, unless `closed` was
observed, the child itself is persisted. -/
def saveFs (σ : List Nat → Option (List Nat)) : Forks → Bool → Forks × Bool
  | .nil, closed => (.nil, closed)
  | .cons k pfx (.mk ct cnc cr ce cfks) rest, closed =>
    let cc :=
      if cr.isSome then ((Node.mk ct cnc cr ce cfks), closed)
      else
        let fc := saveFs σ cfks closed
        persistStep σ (.mk ct cnc cr ce fc.1) fc.2
    let rr := saveFs σ rest cc.2
    (.cons k pfx cc.1 rr.1, rr.2)

/-- `Node.Save(s)` on the root: save children, then persist the root;
the returned flag is true exactly when some saver call failed, in which
case `Save` returns that error to the caller. -/
def saveRoot (σ : List Nat → Option (List Nat)) (n : Node) : Node × Bool :=
  if n.ref.isSome then (n, false)
  else
    let fc := saveFs σ n.forks false
    persistStep σ (setForksN n fc.1) fc.2

/-!
Obfuscated wire format v0.1 (the second, current `marshal.go`): 64-byte
header (32-byte obfuscation key, 31-byte version hash, 1-byte
`ref_bytes_size`), entry of `ref_bytes_size` bytes, 32-byte fork
bitmap, then per set bit one block of `32 + ref_bytes_size` bytes
(child node type, prefix length, prefix padded to 30, child reference).
Everything after the obfuscation key is XORed with the key repeated in
32-byte chunks.  The node type that this `MarshalBinary` reads lives on
the fork's child, so a fork is modelled as its serialisable data:
prefix, child node type, child reference bytes. -/

structure ForkC where
  pfx : List Nat
  childType : Nat
  childRef : List Nat
  deriving DecidableEq, Repr

structure NodeC where
  obfuscationKey : List Nat
  refBytesSize : Nat
  entry : List Nat
  forks : Option (List (Nat × ForkC))
  deriving DecidableEq, Repr

/-- Keccak-256("mantaray:0.1") truncated to 31 bytes
(`version01HashBytes` in `marshal.go`). -/
def version01HashBytes : List Nat :=
  [2, 81, 132, 120, 157, 99, 99, 87, 102, 215, 140, 65, 144, 1, 150, 181,
   125, 116, 0, 135, 94, 190, 77, 155, 93, 30, 118, 189, 150, 82, 169]

/-- The XOR keystream (`encryptDecrypt` applied to consecutive 32-byte
chunks): the byte at index `i` past the key region is XORed with
`key[(i % 32) % len(key)]`.  Go panics on an empty key (modulo by
zero); every use below has a 32-byte key. -/
def xorKeyFrom (key : List Nat) : Nat → List Nat → List Nat
  | _, [] => []
  | i, b :: bs => (b ^^^ key.getD (i % 32 % key.length) 0) :: xorKeyFrom key (i + 1) bs

/-- Fork-map read on the codec fork list. -/
def findA (fks : List (Nat × ForkC)) (k : Nat) : Option ForkC :=
  (fks.find? (fun kf => kf.1 == k)).map Prod.snd

/-- Serialised fork block (`fork.bytes`): child node type, prefix
length (a `uint8` cast), prefix zero-padded to 30 bytes, child
reference verbatim; fails when the reference is longer than 256. -/
def forkBytesC (f : ForkC) : Except Unit (List Nat) :=
  if 256 < f.childRef.length then .error ()
  else
    .ok ([f.childType, f.pfx.length % 256]
      ++ (f.pfx ++ List.replicate 30 0).take 30 ++ f.childRef)

def forkBlocksC (fks : List (Nat × ForkC)) : List Nat → Except Unit (List Nat)
  | [] => .ok []
  | k :: ks => do
    let b ← forkBytesC ((findA fks k).getD ⟨[], 0, []⟩)
    let bs ← forkBlocksC fks ks
    .ok (b ++ bs)

/-- `Node.MarshalBinary` of the v0.1 format.  The random generation of
a missing obfuscation key is not modelled; theorems assume a 32-byte
key is already set (callers may pre-seed one). -/
def marshalC (n : NodeC) : Except Unit (List Nat) :=
  match n.forks with
  | none => .error ()
  | some fks =>
    let keyPad := (n.obfuscationKey ++ List.replicate 32 0).take 32
    let header := keyPad ++ version01HashBytes ++ [n.refBytesSize % 256]
    let entryBytes := (n.entry ++ List.replicate n.refBytesSize 0).take n.refBytesSize
    let bm := bitmapOfKeys (fks.map Prod.fst)
    match forkBlocksC fks (iterKeys bm) with
    | .error e => .error e
    | .ok blocks =>
      let plain := header ++ entryBytes ++ bm ++ blocks
      .ok (plain.take 32 ++ xorKeyFrom n.obfuscationKey 0 (plain.drop 32))

inductive ErrU where
  | tooShort
  | invalid
  | forkShort
  | oob
  deriving DecidableEq, Repr

/-- Go slice expression `data[i:j]`: panics (modelled as `.oob`) when
`i > j` or `j` exceeds the slice length. -/
def sliceD (data : List Nat) (i j : Nat) : Except ErrU (List Nat) :=
  if i ≤ j ∧ j ≤ data.length then .ok ((data.drop i).take (j - i)) else .error .oob

/-- `fork.fromBytes` on one already-extracted block of `32 + R` bytes:
rejects a prefix length `b[1]` of 0 or above 30 (`.invalid`; Go uses a
distinct `fmt` error that the spec's taxonomy groups under Invalid),
otherwise reads the prefix and the child reference; `b[0]` is the
child's node type. -/
def forkFromBytesC (b : List Nat) : Except ErrU ForkC :=
  if b.getD 1 0 = 0 ∨ 30 < b.getD 1 0 then .error .invalid
  else .ok ⟨(b.drop 2).take (b.getD 1 0), b.getD 0 0, b.drop 32⟩

/-- The fork-reading loop of `UnmarshalBinary`: for each set bitmap
bit, check the remaining length (`.forkShort` is Go's "not enough bytes
for node fork" error, grouped under TooShort by the spec), then read
one block. -/
def readForks (plain : List Nat) (R : Nat) : List Nat → Nat → Except ErrU (List (Nat × ForkC))
  | [], _ => .ok []
  | k :: ks, offset =>
    if plain.length < offset + 32 + R then .error .forkShort
    else do
      let b ← sliceD plain offset (offset + 32 + R)
      let f ← forkFromBytesC b
      let rest ← readForks plain R ks (offset + 32 + R)
      .ok ((k, f) :: rest)

/-- The deobfuscated bytes: the XOR decryption pass of
`UnmarshalBinary`, keyed by the input's first 32 bytes. -/
def deobf (data : List Nat) : List Nat :=
  data.take 32 ++ xorKeyFrom (data.take 32) 0 (data.drop 32)

/-- `Node.UnmarshalBinary` of the v0.1 format.  The receiver's
`refBytesSize` field is not assigned by the Go code (the value is kept
in a local variable), so the result carries `refBytesSize = 0`; the
local `refBytesSize` is the deobfuscated byte at offset 63. -/
def unmarshalC (data : List Nat) : Except ErrU NodeC :=
  if data.length < 64 then .error .tooShort
  else
    do
      let versionRegion ← sliceD (deobf data) 32 63
      if versionRegion ≠ version01HashBytes then .error .invalid
      else do
        let entryBytes ← sliceD (deobf data) 64 (64 + (deobf data).getD 63 0)
        let bmRegion ← sliceD (deobf data) (64 + (deobf data).getD 63 0)
          (deobf data).length
        let fks ← readForks (deobf data) ((deobf data).getD 63 0)
          (iterKeys ((bmRegion ++ List.replicate 32 0).take 32))
          (64 + (deobf data).getD 63 0 + 32)
        .ok ⟨data.take 32, 0, entryBytes, some fks⟩

/-!
Concrete instances used to exercise the theorems below on closed
inputs.  Byte 97 is `'a'`, 98 `'b'`, 99 `'c'`.
-/

/-- The trie `{aa ↦ [1], aaaa ↦ [2]}` (the second path extends the
first, so `aaaa` lives in a fork below the node of `aa`). -/
def trieC2 : Node := buildTrie [([97, 97], [1]), ([97, 97, 97, 97], [2])]

/-- The materialized node of `trieC2` at path `aa`. -/
def nodeC2m : Node := (lookupN trieC2 [97, 97]).getD newNode

/-- A marshalable node carrying one fork whose prefix has 31 bytes
(such a fork is produced by `Add` for a path of length 31). -/
def nodeC3bad : NodeC :=
  ⟨List.replicate 32 0, 1, [0], some [(97, ⟨List.replicate 31 97, 0, [5]⟩)]⟩

def bsC3bad : List Nat := (marshalC nodeC3bad).toOption.getD []

/-- A marshalable node within the codec's own limits: one fork with a
2-byte prefix and 1-byte references. -/
def nodeC3good : NodeC :=
  ⟨List.replicate 32 7, 1, [9], some [(97, ⟨[97, 98], 2, [5]⟩)]⟩

def bsC3good : List Nat := (marshalC nodeC3good).toOption.getD []

/-- A node holding a stored reference, as `LookupNode` materializes it
from storage (unmarshalling assigns `n.ref`). -/
def nodeC4 : Node := Node.mk 0 [] (some [9]) [] .nil

def trieC4 : Node := buildTrie [([97], [1])]

def nodeC4r : Node := (removeF 1 trieC4 [97]).toOption.getD newNode

/-- A saver that fails on the 129-byte serialisation (the interior node
of `trieC5`) and stores everything else under a constant reference. -/
def sigmaC5 : List Nat → Option (List Nat) :=
  fun bs => if bs.length = 129 then none else some (List.replicate 32 1)

/-- The trie `{a ↦ [1], ab ↦ [2]}`. -/
def trieC5 : Node := buildTrie [([97], [1]), ([97, 98], [2])]

/-- A 31-byte path: its whole remainder fits in one fork prefix under
the source's limit of 32, exceeding the spec's claimed limit of 30. -/
def pathC6 : List Nat := List.replicate 31 97

/-- A 64-byte input that deobfuscates to a valid header: 32-byte zero
key (the XOR pass is the identity), the version hash, `ref_bytes_size`
0. -/
def dataC8 : List Nat := List.replicate 32 0 ++ version01HashBytes ++ [0]

/-- A 64-byte input with a valid header but `ref_bytes_size` 1: the
entry read `data[64:65]` is out of range. -/
def dataC9 : List Nat := List.replicate 32 0 ++ version01HashBytes ++ [1]

/-- The trie `{aab ↦ [1], aac ↦ [2]}`: the split on the second add
creates an interior branch node at path `aa` with an empty entry. -/
def trie10 : Node := buildTrie [([97, 97, 98], [1]), ([97, 97, 99], [2])]

/-- List-shaped induction on fork tables (the `induction` tactic does
not apply the mutual recursor directly). -/
theorem forksInduct {motive : Forks → Prop} (hnil : motive .nil)
    (hcons : ∀ (k : Nat) (p : List Nat) (c : Node) (rest : Forks),
      motive rest → motive (.cons k p c rest)) :
    ∀ fks, motive fks
  | .nil => hnil
  | .cons k p c rest => hcons k p c rest (forksInduct hnil hcons rest)

/-- Tree-shaped induction on fork tables: recurses both into the child
node's forks and along the sibling list. -/
theorem forksInductDeep {motive : Forks → Prop} (hnil : motive .nil)
    (hcons : ∀ (k : Nat) (p : List Nat) (t : Nat) (nc : List Nat)
      (r : Option (List Nat)) (e : List Nat) (cfks : Forks) (rest : Forks),
      motive cfks → motive rest → motive (.cons k p (.mk t nc r e cfks) rest)) :
    ∀ fks, motive fks
  | .nil => hnil
  | .cons k p (.mk t nc r e cfks) rest =>
    hcons k p t nc r e cfks rest (forksInductDeep hnil hcons cfks)
      (forksInductDeep hnil hcons rest)

/-!
Basic simp lemmas on the node accessors and flag operations.
-/

@[simp] theorem nodeType_mk (t : Nat) (nc : List Nat) (r : Option (List Nat))
    (e : List Nat) (fks : Forks) : (Node.mk t nc r e fks).nodeType = t := rfl

@[simp] theorem ref_mk (t : Nat) (nc : List Nat) (r : Option (List Nat))
    (e : List Nat) (fks : Forks) : (Node.mk t nc r e fks).ref = r := rfl

@[simp] theorem entry_mk (t : Nat) (nc : List Nat) (r : Option (List Nat))
    (e : List Nat) (fks : Forks) : (Node.mk t nc r e fks).entry = e := rfl

@[simp] theorem forks_mk (t : Nat) (nc : List Nat) (r : Option (List Nat))
    (e : List Nat) (fks : Forks) : (Node.mk t nc r e fks).forks = fks := rfl

@[simp] theorem entry_makeValue (n : Node) : (makeValue n).entry = n.entry := by
  cases n <;> rfl

@[simp] theorem forks_makeValue (n : Node) : (makeValue n).forks = n.forks := by
  cases n <;> rfl

@[simp] theorem ref_makeValue (n : Node) : (makeValue n).ref = n.ref := by
  cases n <;> rfl

@[simp] theorem entry_makeEdge (n : Node) : (makeEdge n).entry = n.entry := by
  cases n <;> rfl

@[simp] theorem forks_makeEdge (n : Node) : (makeEdge n).forks = n.forks := by
  cases n <;> rfl

@[simp] theorem ref_makeEdge (n : Node) : (makeEdge n).ref = n.ref := by
  cases n <;> rfl

@[simp] theorem entry_makeWPS (n : Node) : (makeWithPathSeparator n).entry = n.entry := by
  cases n <;> rfl

@[simp] theorem forks_makeWPS (n : Node) : (makeWithPathSeparator n).forks = n.forks := by
  cases n <;> rfl

@[simp] theorem ref_makeWPS (n : Node) : (makeWithPathSeparator n).ref = n.ref := by
  cases n <;> rfl

@[simp] theorem entry_makeNotWPS (n : Node) :
    (makeNotWithPathSeparator n).entry = n.entry := by cases n <;> rfl

@[simp] theorem forks_makeNotWPS (n : Node) :
    (makeNotWithPathSeparator n).forks = n.forks := by cases n <;> rfl

@[simp] theorem ref_makeNotWPS (n : Node) :
    (makeNotWithPathSeparator n).ref = n.ref := by cases n <;> rfl

@[simp] theorem entry_updateWPS (n : Node) (m : List Nat) :
    (updateWPS n m).entry = n.entry := by
  unfold updateWPS
  cases m.findIdx? (fun b => b == pathSeparator) <;> simp only []
  · simp
  · split <;> simp

@[simp] theorem forks_updateWPS (n : Node) (m : List Nat) :
    (updateWPS n m).forks = n.forks := by
  unfold updateWPS
  cases m.findIdx? (fun b => b == pathSeparator) <;> simp only []
  · simp
  · split <;> simp

@[simp] theorem ref_updateWPS (n : Node) (m : List Nat) :
    (updateWPS n m).ref = n.ref := by
  unfold updateWPS
  cases m.findIdx? (fun b => b == pathSeparator) <;> simp only []
  · simp
  · split <;> simp

@[simp] theorem forks_setForksN (n : Node) (fks : Forks) :
    (setForksN n fks).forks = fks := by cases n <;> rfl

@[simp] theorem entry_setForksN (n : Node) (fks : Forks) :
    (setForksN n fks).entry = n.entry := by cases n <;> rfl

@[simp] theorem ref_setForksN (n : Node) (fks : Forks) :
    (setForksN n fks).ref = n.ref := by cases n <;> rfl

@[simp] theorem entry_newLeaf (path entry : List Nat) :
    (newLeaf path entry).entry = entry := by simp [newLeaf]

@[simp] theorem forks_newLeaf (path entry : List Nat) :
    (newLeaf path entry).forks = Forks.nil := by simp [newLeaf]

/-!
Lemmas about `common`, the longest common prefix.
-/

theorem common_prefix_left (a b : List Nat) : common a b <+: a := by
  induction a generalizing b with
  | nil => cases b <;> simp [common]
  | cons x as ih =>
    cases b with
    | nil => simp [common]
    | cons y bs =>
      by_cases h : x = y
      · subst h
        simpa [common] using ih bs
      · simp [common, h]

theorem common_prefix_right (a b : List Nat) : common a b <+: b := by
  induction a generalizing b with
  | nil => cases b <;> simp [common]
  | cons x as ih =>
    cases b with
    | nil => simp [common]
    | cons y bs =>
      by_cases h : x = y
      · subst h
        simpa [common] using ih bs
      · simp [common, h]

theorem common_eq_left (a b : List Nat) (h : a <+: b) : common a b = a := by
  induction a generalizing b with
  | nil => cases b <;> simp [common]
  | cons x as ih =>
    cases b with
    | nil => simp at h
    | cons y bs =>
      rcases List.cons_prefix_cons.mp h with ⟨rfl, h2⟩
      simp [common, ih bs h2]

theorem common_length_eq_iff (a b : List Nat) :
    (common a b).length = a.length ↔ a <+: b := by
  constructor
  · intro h
    have h1 := common_prefix_left a b
    have h2 := common_prefix_right a b
    rwa [h1.eq_of_length h] at h2
  · intro h
    rw [common_eq_left a b h]

theorem common_cons_eq (x : Nat) (u w : List Nat) :
    common (x :: u) (x :: w) = x :: common u w := by simp [common]

/-- When both sides extend the common prefix, they diverge at its end. -/
theorem common_drop_head_ne (a b : List Nat)
    (ha : a.drop (common a b).length ≠ [])
    (hb : b.drop (common a b).length ≠ []) :
    (a.drop (common a b).length).head? ≠ (b.drop (common a b).length).head? := by
  induction a generalizing b with
  | nil => simp [common] at ha
  | cons x as ih =>
    cases b with
    | nil => cases ha' : common (x :: as) [] <;> simp [common] at hb
    | cons y bs =>
      by_cases h : x = y
      · subst h
        rw [common_cons_eq] at ha hb ⊢
        simpa using ih bs (by simpa using ha) (by simpa using hb)
      · simpa [common, h] using h

/-- Prefixes of the same list with the same residue are equal. -/
theorem prefix_drop_cancel (a x y : List Nat) (hx : a <+: x) (hy : a <+: y)
    (h : x.drop a.length = y.drop a.length) : x = y := by
  obtain ⟨u, rfl⟩ := hx
  obtain ⟨w, rfl⟩ := hy
  simpa [List.drop_left' rfl] using h

/-!
Lemmas about the fork-map operations.
-/

@[simp] theorem findFork_setFork_self (fks : Forks) (b : Nat) (pfx : List Nat)
    (child : Node) : findFork (setFork fks b pfx child) b = some (pfx, child) := by
  induction fks using forksInduct with
  | hnil => simp [setFork, findFork]
  | hcons k p c rest ih =>
    by_cases h : k = b
    · subst h
      simp [setFork, findFork]
    · simp [setFork, findFork, h, ih]

theorem findFork_setFork_ne (fks : Forks) (b k : Nat) (pfx : List Nat)
    (child : Node) (h : k ≠ b) :
    findFork (setFork fks b pfx child) k = findFork fks k := by
  induction fks using forksInduct with
  | hnil => simp [setFork, findFork, Ne.symm h]
  | hcons k2 p c rest ih =>
    by_cases h2 : k2 = b
    · subst h2
      simp [setFork, findFork, Ne.symm h]
    · simp only [setFork, if_neg h2]
      by_cases h3 : k2 = k
      · subst h3
        simp [findFork]
      · simp [findFork, h3, ih]

theorem findFork_eq_none_iff (fks : Forks) (b : Nat) :
    findFork fks b = none ↔ ¬ (keysF fks).contains b := by
  induction fks using forksInduct with
  | hnil => simp [findFork, keysF]
  | hcons k p c rest ih =>
    by_cases h : k = b
    · subst h
      simp [findFork, keysF]
    · simp [findFork, keysF, h, ih, Ne.symm h]

theorem keysF_setFork_mem (fks : Forks) (b k : Nat) (pfx : List Nat) (child : Node) :
    (keysF (setFork fks b pfx child)).contains k
      = ((keysF fks).contains k || k == b) := by
  induction fks using forksInduct with
  | hnil =>
    simp only [setFork, keysF, List.contains_cons, List.contains_nil, Bool.false_or,
      Bool.or_false]
  | hcons k2 p c rest ih =>
    by_cases h : k2 = b
    · subst h
      by_cases h2 : k2 = k
      · subst h2
        simp [setFork, keysF]
      · simp [setFork, keysF, h2, Ne.symm h2]
    · simp only [setFork, if_neg h, keysF, List.contains_cons, ih]
      by_cases h2 : k = k2
      · subst h2
        simp
      · simp [h2, Bool.or_assoc]

theorem findFork_delFork_ne (fks : Forks) (b k : Nat) (h : k ≠ b) :
    findFork (delFork fks b) k = findFork fks k := by
  induction fks using forksInduct with
  | hnil => simp [delFork]
  | hcons k2 p c rest ih =>
    by_cases h2 : k2 = b
    · subst h2
      simp [delFork, findFork, Ne.symm h]
    · simp [delFork, findFork, h2, ih]

theorem keysF_delFork_contains (fks : Forks) (b k : Nat) :
    (keysF (delFork fks b)).contains k = true → (keysF fks).contains k = true := by
  induction fks using forksInduct with
  | hnil => simp [delFork]
  | hcons k2 p c rest ih =>
    by_cases h2 : k2 = b
    · subst h2
      simp only [delFork, if_pos rfl, if_true, keysF, List.contains_cons]
      intro h
      simp at h ⊢
      exact Or.inr h
    · simp only [delFork, if_neg h2, keysF, List.contains_cons]
      intro h
      rcases Bool.or_eq_true_iff.mp h with h | h
      · simp [h]
      · have h3 := ih h
        simp at h3 ⊢
        exact Or.inr h3

example : lookupE (add newNode [1, 2] [9, 9]) [1, 2] = some [9, 9] := by decide

example : lookupE (add (add newNode [1, 2] [7]) [1, 3] [8]) [1, 2] = some [7] := by decide

example : wfB (add (add newNode [1, 2] [7]) [1, 3] [8]) = true := by decide

example :
    (removeE (add (add newNode [1, 2] [7]) [1, 3] [8]) [1, 2]).map (fun t => lookupE t [1, 3])
      = .ok (some [8]) := rfl

/-!
Well-formedness lemmas: the fork invariant is preserved by the
fork-map operations and by `Add`.
-/

@[simp] theorem wfB_mk (t : Nat) (nc : List Nat) (r : Option (List Nat))
    (e : List Nat) (fks : Forks) : wfB (.mk t nc r e fks) = wfFs fks := rfl

theorem wfFs_cons (k : Nat) (pfx : List Nat) (child : Node) (rest : Forks) :
    wfFs (.cons k pfx child rest)
      = ((pfx.head? == some k) && !(keysF rest).contains k && wfB child && wfFs rest) := by
  cases child
  rfl

theorem wfB_eq_wfFs (n : Node) : wfB n = wfFs n.forks := rfl

theorem wfB_updateWPS (n : Node) (m : List Nat) : wfB (updateWPS n m) = wfB n := by
  rw [wfB_eq_wfFs, wfB_eq_wfFs, forks_updateWPS]

theorem wfB_makeValue (n : Node) : wfB (makeValue n) = wfB n := by
  rw [wfB_eq_wfFs, wfB_eq_wfFs, forks_makeValue]

theorem wfB_makeEdge (n : Node) : wfB (makeEdge n) = wfB n := by
  rw [wfB_eq_wfFs, wfB_eq_wfFs, forks_makeEdge]

theorem wf_find (fks : Forks) (b : Nat) (pfx : List Nat) (child : Node)
    (hwf : wfFs fks = true) (h : findFork fks b = some (pfx, child)) :
    pfx.head? = some b ∧ wfB child = true := by
  induction fks using forksInduct with
  | hnil => simp [findFork] at h
  | hcons k p c rest ih =>
    rw [wfFs_cons] at hwf
    simp only [Bool.and_eq_true, beq_iff_eq] at hwf
    obtain ⟨⟨⟨hh, _⟩, hc⟩, hr⟩ := hwf
    by_cases hk : k = b
    · subst hk
      simp only [findFork, if_true, eq_self_iff_true, Option.some.injEq,
        Prod.mk.injEq] at h
      obtain ⟨rfl, rfl⟩ := h
      exact ⟨hh, hc⟩
    · simp only [findFork, if_neg hk] at h
      exact ih hr h

theorem wfFs_setFork (fks : Forks) (b : Nat) (pfx : List Nat) (child : Node)
    (hwf : wfFs fks = true) (hh : pfx.head? = some b) (hc : wfB child = true) :
    wfFs (setFork fks b pfx child) = true := by
  induction fks using forksInduct with
  | hnil => simp [setFork, wfFs_cons, wfFs, keysF, hh, hc]
  | hcons k p c rest ih =>
    rw [wfFs_cons] at hwf
    simp only [Bool.and_eq_true, beq_iff_eq] at hwf
    obtain ⟨⟨⟨hkh, hkc⟩, hwc⟩, hwr⟩ := hwf
    by_cases hk : k = b
    · subst hk
      simp only [setFork, if_true, eq_self_iff_true]
      rw [wfFs_cons]
      simp only [Bool.and_eq_true, beq_iff_eq, Bool.not_eq_true']
      exact ⟨⟨⟨hh, by simpa using hkc⟩, hc⟩, hwr⟩
    · simp only [setFork, if_neg hk]
      rw [wfFs_cons]
      simp only [Bool.and_eq_true, beq_iff_eq]
      refine ⟨⟨⟨hkh, ?_⟩, hwc⟩, ih hwr⟩
      rw [keysF_setFork_mem]
      simp only [Bool.not_eq_true', Bool.or_eq_false_iff]
      exact ⟨by simpa using hkc, by simpa using hk⟩

theorem wfFs_delFork (fks : Forks) (b : Nat) (hwf : wfFs fks = true) :
    wfFs (delFork fks b) = true := by
  induction fks using forksInduct with
  | hnil => simpa [delFork] using hwf
  | hcons k p c rest ih =>
    rw [wfFs_cons] at hwf
    simp only [Bool.and_eq_true, beq_iff_eq] at hwf
    obtain ⟨⟨⟨hkh, hkc⟩, hwc⟩, hwr⟩ := hwf
    by_cases hk : k = b
    · subst hk
      simpa [delFork] using hwr
    · simp only [delFork, if_neg hk]

      rw [wfFs_cons]
      simp only [Bool.and_eq_true, beq_iff_eq]
      refine ⟨⟨⟨hkh, ?_⟩, hwc⟩, ih hwr⟩
      simp only [Bool.not_eq_true'] at hkc ⊢
      by_cases hmem : (keysF (delFork rest b)).contains k = true
      · rw [keysF_delFork_contains rest b k hmem] at hkc
        exact absurd hkc (by simp)
      · simpa using hmem

theorem wfB_newLeaf (path entry : List Nat) : wfB (newLeaf path entry) = true := by
  rw [wfB_eq_wfFs, forks_newLeaf]
  rfl

theorem wfB_splitNode (rest : List Nat) (h : rest ≠ []) (child : Node)
    (hc : wfB child = true) : wfB (splitNode rest child) = true := by
  rw [splitNode, wfB_makeEdge, wfB_mk, wfFs_cons]
  cases rest with
  | nil => exact absurd rfl h
  | cons rh rt => simp [keysF, List.headI, wfB_updateWPS, hc, wfFs]

/-!
Unfold lemmas for `addF`.
-/

@[simp] theorem addF_nil (fuel t : Nat) (nc : List Nat) (r : Option (List Nat))
    (e0 entry : List Nat) (fks : Forks) :
    addF fuel (.mk t nc r e0 fks) [] entry = .mk t nc none entry fks := by
  cases fuel <;> rfl

theorem addF_zero (n : Node) (b : Nat) (p entry : List Nat) :
    addF 0 n (b :: p) entry = n := by
  cases n
  rfl

theorem addF_succ_none_short (fuel t : Nat) (nc : List Nat) (r : Option (List Nat))
    (e entry : List Nat) (fks : Forks) (b : Nat) (p : List Nat)
    (h : findFork fks b = none) (hlen : ¬ 32 < (b :: p).length) :
    addF (fuel + 1) (.mk t nc r e fks) (b :: p) entry
      = makeEdge (.mk t nc r e (setFork fks b (b :: p) (newLeaf (b :: p) entry))) := by
  simp only [addF, h]
  rw [if_neg (by simpa using hlen)]

theorem addF_succ_none_long (fuel t : Nat) (nc : List Nat) (r : Option (List Nat))
    (e entry : List Nat) (fks : Forks) (b : Nat) (p : List Nat)
    (h : findFork fks b = none) (hlen : 32 < (b :: p).length) :
    addF (fuel + 1) (.mk t nc r e fks) (b :: p) entry
      = makeEdge (.mk t nc r e (setFork fks b ((b :: p).take 32)
          (updateWPS (addF fuel newNode ((b :: p).drop 32) entry) ((b :: p).take 32)))) := by
  simp only [addF, h]
  rw [if_pos (by simpa using hlen)]

theorem addF_succ_found (fuel t : Nat) (nc : List Nat) (r : Option (List Nat))
    (e entry : List Nat) (fks : Forks) (b : Nat) (p pfx : List Nat) (child : Node)
    (h : findFork fks b = some (pfx, child)) :
    addF (fuel + 1) (.mk t nc r e fks) (b :: p) entry
      = makeEdge (.mk t nc r e (setFork fks b (common pfx (b :: p))
          (addF fuel
            (updateWPS
              (if pfx.drop (common pfx (b :: p)).length = [] then child
               else splitNode (pfx.drop (common pfx (b :: p)).length) child)
              (b :: p))
            ((b :: p).drop (common pfx (b :: p)).length) entry))) := by
  simp [addF, h]

theorem head_of_head? {b : Nat} {pfx : List Nat} (hh : pfx.head? = some b) :
    ∃ u, pfx = b :: u := by
  cases pfx with
  | nil => simp at hh
  | cons x u =>
    simp only [List.head?_cons, Option.some.injEq] at hh
    exact ⟨u, by rw [hh]⟩

/-- `Add` preserves the fork invariant. -/
theorem wfB_addF (fuel : Nat) :
    ∀ (n : Node) (p e : List Nat), wfB n = true → wfB (addF fuel n p e) = true := by
  induction fuel with
  | zero =>
    intro n p e hwf
    cases n with | mk t nc r e0 fks =>
    cases p with
    | nil => simpa using hwf
    | cons b p0 =>
      rw [addF_zero]
      exact hwf
  | succ fuel ih =>
    intro n p e hwf
    cases n with | mk t nc r e0 fks =>
    cases p with
    | nil => simpa using hwf
    | cons b p0 =>
      rw [wfB_mk] at hwf
      cases hf : findFork fks b with
      | none =>
        by_cases hlen : 32 < (b :: p0).length
        · rw [addF_succ_none_long fuel t nc r e0 e fks b p0 hf hlen, wfB_makeEdge, wfB_mk]
          refine wfFs_setFork _ _ _ _ hwf (by simp) ?_
          rw [wfB_updateWPS]
          exact ih newNode _ e rfl
        · rw [addF_succ_none_short fuel t nc r e0 e fks b p0 hf hlen, wfB_makeEdge, wfB_mk]
          exact wfFs_setFork _ _ _ _ hwf (by simp) (wfB_newLeaf _ _)
      | some pc =>
        obtain ⟨pfx, child⟩ := pc
        obtain ⟨hh, hc⟩ := wf_find fks b pfx child hwf hf
        obtain ⟨pfx0, rfl⟩ := head_of_head? hh
        rw [addF_succ_found fuel t nc r e0 e fks b p0 _ child hf, wfB_makeEdge, wfB_mk]
        refine wfFs_setFork _ _ _ _ hwf (by rw [common_cons_eq]; simp) ?_
        refine ih _ _ e ?_
        rw [wfB_updateWPS]
        split
        · exact hc
        · next hrest => exact wfB_splitNode _ hrest child hc

/-!
Lookup machinery: unfold lemmas and fuel irrelevance on well-formed
tries.
-/

@[simp] theorem lookupNF_nil (fuel : Nat) (n : Node) : lookupNF fuel n [] = some n := by
  cases fuel <;> rfl

theorem lookupNF_succ (fuel : Nat) (n : Node) (b : Nat) (q0 : List Nat) :
    lookupNF (fuel + 1) n (b :: q0)
      = (match findFork n.forks b with
        | none => none
        | some (pfx, child) =>
          if (common pfx (b :: q0)).length = pfx.length
          then lookupNF fuel child ((b :: q0).drop (common pfx (b :: q0)).length)
          else none) := rfl

theorem lookupNF_fuel (f1 : Nat) :
    ∀ (f2 : Nat) (n : Node) (q : List Nat), wfB n = true →
      q.length ≤ f1 → q.length ≤ f2 → lookupNF f1 n q = lookupNF f2 n q := by
  induction f1 with
  | zero =>
    intro f2 n q hwf h1 h2
    cases q with
    | nil => simp
    | cons b q0 => simp at h1
  | succ f1 ih =>
    intro f2 n q hwf h1 h2
    cases q with
    | nil => simp
    | cons b q0 =>
      cases f2 with
      | zero => simp at h2
      | succ f2 =>
        rw [lookupNF_succ, lookupNF_succ]
        cases hf : findFork n.forks b with
        | none => rfl
        | some pc =>
          obtain ⟨pfx, child⟩ := pc
          obtain ⟨hh, hc⟩ := wf_find n.forks b pfx child hwf hf
          obtain ⟨pfx0, rfl⟩ := head_of_head? hh
          simp only []
          rw [common_cons_eq]
          split
          · refine ih f2 child _ hc ?_ ?_ <;>
              simp only [List.length_cons, List.length_drop] at h1 h2 ⊢ <;> omega
          · rfl

@[simp] theorem lookupN_nil (n : Node) : lookupN n [] = some n := rfl

@[simp] theorem lookupE_nil (n : Node) : lookupE n [] = some n.entry := rfl

/-- Lookup on a non-empty path depends on the node only through the
fork found at its first byte. -/
theorem lookupN_cons_ext (x y : Node) (b : Nat) (q0 : List Nat)
    (h : findFork x.forks b = findFork y.forks b) :
    lookupN x (b :: q0) = lookupN y (b :: q0) := by
  simp only [lookupN, List.length_cons, lookupNF_succ, h]

theorem lookupN_cons_none (n : Node) (b : Nat) (q0 : List Nat)
    (hf : findFork n.forks b = none) : lookupN n (b :: q0) = none := by
  simp [lookupN, lookupNF_succ, hf]

theorem lookupE_cons_none (n : Node) (b : Nat) (q0 : List Nat)
    (hf : findFork n.forks b = none) : lookupE n (b :: q0) = none := by
  simp [lookupE, lookupN_cons_none n b q0 hf]

theorem lookupN_cons_nomatch (n : Node) (b : Nat) (q0 pfx : List Nat) (child : Node)
    (hf : findFork n.forks b = some (pfx, child)) (hnp : ¬ pfx <+: (b :: q0)) :
    lookupN n (b :: q0) = none := by
  simp only [lookupN, List.length_cons, lookupNF_succ, hf]
  rw [if_neg]
  intro hlen
  exact hnp ((common_length_eq_iff pfx (b :: q0)).mp hlen)

theorem lookupE_cons_nomatch (n : Node) (b : Nat) (q0 pfx : List Nat) (child : Node)
    (hf : findFork n.forks b = some (pfx, child)) (hnp : ¬ pfx <+: (b :: q0)) :
    lookupE n (b :: q0) = none := by
  simp [lookupE, lookupN_cons_nomatch n b q0 pfx child hf hnp]

/-- Descending through a fully matching fork. -/
theorem lookupN_fork (n : Node) (b : Nat) (q0 pfx : List Nat) (child : Node)
    (hwf : wfB n = true) (hf : findFork n.forks b = some (pfx, child))
    (hpre : pfx <+: (b :: q0)) :
    lookupN n (b :: q0) = lookupN child ((b :: q0).drop pfx.length) := by
  obtain ⟨hh, hc⟩ := wf_find n.forks b pfx child hwf hf
  simp only [lookupN, List.length_cons, lookupNF_succ, hf]
  rw [common_eq_left pfx _ hpre, if_pos rfl]
  obtain ⟨pfx0, rfl⟩ := head_of_head? hh
  refine lookupNF_fuel q0.length _ child _ hc ?_ ?_ <;>
    simp only [List.length_drop, List.length_cons] <;> omega

theorem lookupE_fork (n : Node) (b : Nat) (q0 pfx : List Nat) (child : Node)
    (hwf : wfB n = true) (hf : findFork n.forks b = some (pfx, child))
    (hpre : pfx <+: (b :: q0)) :
    lookupE n (b :: q0) = lookupE child ((b :: q0).drop pfx.length) := by
  simp [lookupE, lookupN_fork n b q0 pfx child hwf hf hpre]

theorem lookupE_updateWPS (x : Node) (m q : List Nat) :
    lookupE (updateWPS x m) q = lookupE x q := by
  cases q with
  | nil => simp
  | cons b q0 =>
    unfold lookupE
    rw [lookupN_cons_ext (updateWPS x m) x b q0 (by rw [forks_updateWPS])]

theorem lookupE_cons_ext (x y : Node) (b : Nat) (q0 : List Nat)
    (h : findFork x.forks b = findFork y.forks b) :
    lookupE x (b :: q0) = lookupE y (b :: q0) := by
  unfold lookupE
  rw [lookupN_cons_ext x y b q0 h]

theorem prefix_append_drop (a x : List Nat) (h : a <+: x) :
    a ++ x.drop a.length = x := by
  obtain ⟨s, rfl⟩ := h
  rw [List.drop_left]

/-- Main lemma about `Add` on a well-formed trie: the added path maps
to the new entry, and every other path that previously resolved to an
entry still resolves to the same entry. -/
theorem addF_lookup (fuel : Nat) :
    ∀ (n : Node) (p e : List Nat), wfB n = true → p.length ≤ fuel →
      lookupE (addF fuel n p e) p = some e ∧
      (∀ q v, q ≠ p → lookupE n q = some v → lookupE (addF fuel n p e) q = some v) := by
  induction fuel with
  | zero =>
    intro n p e hwf hlen
    cases n with | mk t nc r e0 fks =>
    cases p with
    | cons b p0 => simp at hlen
    | nil =>
      rw [addF_nil]
      refine ⟨by simp, ?_⟩
      intro q v hq hv
      cases q with
      | nil => exact absurd rfl hq
      | cons bq q0 =>
        rw [lookupE_cons_ext (.mk t nc none e fks) (.mk t nc r e0 fks) bq q0 rfl]
        exact hv
  | succ fuel ih =>
    intro n p e hwf hlen
    cases n with | mk t nc r e0 fks =>
    cases p with
    | nil =>
      rw [addF_nil]
      refine ⟨by simp, ?_⟩
      intro q v hq hv
      cases q with
      | nil => exact absurd rfl hq
      | cons bq q0 =>
        rw [lookupE_cons_ext (.mk t nc none e fks) (.mk t nc r e0 fks) bq q0 rfl]
        exact hv
    | cons b p0 =>
      rw [wfB_mk] at hwf
      have hwfA := wfB_addF (fuel + 1) (.mk t nc r e0 fks) (b :: p0) e (by rwa [wfB_mk])
      cases hf : findFork fks b with
      | none =>
        by_cases hl : 32 < (b :: p0).length
        · -- no fork, long path: chain through an intermediate node
          rw [addF_succ_none_long fuel t nc r e0 e fks b p0 hf hl] at hwfA ⊢
          have htklen : ((b :: p0).take 32).length = 32 := by
            simp only [List.length_take, List.length_cons]
            simp only [List.length_cons] at hl
            omega
          have hfind :
              findFork (makeEdge (.mk t nc r e0 (setFork fks b ((b :: p0).take 32)
                (updateWPS (addF fuel newNode ((b :: p0).drop 32) e)
                  ((b :: p0).take 32))))).forks b
              = some ((b :: p0).take 32,
                  updateWPS (addF fuel newNode ((b :: p0).drop 32) e) ((b :: p0).take 32)) := by
            simp
          constructor
          · rw [lookupE_fork _ b p0 _ _ hwfA hfind (List.take_prefix _ _), htklen,
              lookupE_updateWPS]
            refine (ih newNode _ e rfl ?_).1
            simp only [List.length_drop, List.length_cons] at hl hlen ⊢
            omega
          · intro q v hq hv
            cases q with
            | nil =>
              simp only [lookupE_nil, entry_makeEdge, entry_mk] at hv ⊢
              exact hv
            | cons bq q0 =>
              by_cases hbq : bq = b
              · rw [hbq] at hv
                rw [lookupE_cons_none (.mk t nc r e0 fks) b q0 hf] at hv
                exact absurd hv (by simp)
              · rw [lookupE_cons_ext _ (.mk t nc r e0 fks) bq q0 (by
                  simp only [forks_makeEdge, forks_mk]
                  exact findFork_setFork_ne fks b bq _ _ hbq)]
                exact hv
        · -- no fork, short path: new leaf
          rw [addF_succ_none_short fuel t nc r e0 e fks b p0 hf hl] at hwfA ⊢
          have hfind :
              findFork (makeEdge (.mk t nc r e0 (setFork fks b (b :: p0)
                (newLeaf (b :: p0) e)))).forks b
              = some ((b :: p0), newLeaf (b :: p0) e) := by simp
          constructor
          · rw [lookupE_fork _ b p0 _ _ hwfA hfind List.prefix_rfl, List.drop_length]
            simp
          · intro q v hq hv
            cases q with
            | nil =>
              simp only [lookupE_nil, entry_makeEdge, entry_mk] at hv ⊢
              exact hv
            | cons bq q0 =>
              by_cases hbq : bq = b
              · rw [hbq] at hv
                rw [lookupE_cons_none (.mk t nc r e0 fks) b q0 hf] at hv
                exact absurd hv (by simp)
              · rw [lookupE_cons_ext _ (.mk t nc r e0 fks) bq q0 (by
                  simp only [forks_makeEdge, forks_mk]
                  exact findFork_setFork_ne fks b bq _ _ hbq)]
                exact hv
      | some pc =>
        obtain ⟨pfx, child⟩ := pc
        obtain ⟨hh, hc⟩ := wf_find fks b pfx child hwf hf
        obtain ⟨pfx0, rfl⟩ := head_of_head? hh
        rw [addF_succ_found fuel t nc r e0 e fks b p0 _ child hf] at hwfA ⊢
        set c := common (b :: pfx0) (b :: p0) with hcdef
        have hcc : c = b :: common pfx0 p0 := common_cons_eq b pfx0 p0
        have hcp : c <+: (b :: p0) := common_prefix_right _ _
        have hcpfx : c <+: (b :: pfx0) := common_prefix_left _ _
        have hclen : 1 ≤ c.length := by rw [hcc]; simp
        have hwfNN : wfB (updateWPS
            (if (b :: pfx0).drop c.length = [] then child
             else splitNode ((b :: pfx0).drop c.length) child) (b :: p0)) = true := by
          rw [wfB_updateWPS]
          split
          · exact hc
          · next hrest => exact wfB_splitNode _ hrest child hc
        have hlen2 : ((b :: p0).drop c.length).length ≤ fuel := by
          simp only [List.length_drop, List.length_cons] at hlen ⊢
          omega
        have hfind :
            findFork (makeEdge (.mk t nc r e0 (setFork fks b c
              (addF fuel (updateWPS
                (if (b :: pfx0).drop c.length = [] then child
                 else splitNode ((b :: pfx0).drop c.length) child) (b :: p0))
                ((b :: p0).drop c.length) e)))).forks b
            = some (c, addF fuel (updateWPS
                (if (b :: pfx0).drop c.length = [] then child
                 else splitNode ((b :: pfx0).drop c.length) child) (b :: p0))
                ((b :: p0).drop c.length) e) := by simp
        constructor
        · rw [lookupE_fork _ b p0 c _ hwfA hfind hcp]
          exact (ih _ _ e hwfNN hlen2).1
        · intro q v hq hv
          cases q with
          | nil =>
            simp only [lookupE_nil, entry_makeEdge, entry_mk] at hv ⊢
            exact hv
          | cons bq q0 =>
            by_cases hbq : bq = b
            · rw [hbq] at hv hq ⊢
              by_cases hpq : (b :: pfx0) <+: (b :: q0)
              · rw [lookupE_fork (.mk t nc r e0 fks) b q0 _ child (by rwa [wfB_mk])
                  hf hpq] at hv
                rw [lookupE_fork _ b q0 c _ hwfA hfind (hcpfx.trans hpq)]
                refine (ih _ _ e hwfNN hlen2).2 _ v ?_ ?_
                · intro heq
                  exact hq (prefix_drop_cancel c _ _ (hcpfx.trans hpq) hcp heq)
                · rw [lookupE_updateWPS]
                  by_cases hrest : (b :: pfx0).drop c.length = []
                  · rw [if_pos hrest]
                    have hcfull : (b :: pfx0) = c :=
                      (hcpfx.eq_of_length (le_antisymm hcpfx.length_le
                        (by rwa [List.drop_eq_nil_iff] at hrest))).symm
                    rw [← hcfull]
                    exact hv
                  · rw [if_neg hrest]
                    obtain ⟨s, hs⟩ := hpq
                    have hpfxsplit : c ++ (b :: pfx0).drop c.length = (b :: pfx0) :=
                      prefix_append_drop c _ hcpfx
                    have hdropq : (b :: q0).drop c.length
                        = (b :: pfx0).drop c.length ++ s := by
                      conv_lhs => rw [← hs, ← hpfxsplit]
                      rw [List.append_assoc, List.drop_left]
                    have hsv : s = (b :: q0).drop (b :: pfx0).length := by
                      rw [← hs, List.drop_left]
                    rw [hdropq]
                    cases hr : (b :: pfx0).drop c.length with
                    | nil => exact absurd hr hrest
                    | cons rh rt =>
                      have hfind2 : findFork (splitNode (rh :: rt) child).forks rh
                          = some (rh :: rt, updateWPS child (rh :: rt)) := by
                        rw [splitNode]
                        simp [findFork, List.headI]
                      have hsplitwf : wfB (splitNode (rh :: rt) child) = true := by
                        have hw := wfB_splitNode ((b :: pfx0).drop c.length) hrest child hc
                        rwa [hr] at hw
                      rw [show (rh :: rt) ++ s = rh :: (rt ++ s) from rfl]
                      rw [lookupE_fork (splitNode (rh :: rt) child) rh (rt ++ s)
                        _ _ hsplitwf hfind2
                        (by rw [show rh :: (rt ++ s) = (rh :: rt) ++ s from rfl]
                            exact List.prefix_append _ _)]
                      have hdrops : (rh :: (rt ++ s)).drop (rh :: rt).length = s := by
                        rw [show rh :: (rt ++ s) = (rh :: rt) ++ s from rfl]
                        exact List.drop_left _ _
                      rw [hdrops, lookupE_updateWPS, hsv]
                      exact hv
              · rw [lookupE_cons_nomatch (.mk t nc r e0 fks) b q0 _ child hf hpq] at hv
                exact absurd hv (by simp)
            · rw [lookupE_cons_ext _ (.mk t nc r e0 fks) bq q0 (by
                simp only [forks_makeEdge, forks_mk]
                exact findFork_setFork_ne fks b bq _ _ hbq)]
              exact hv

/-!
Build-level lemmas: tries built by a sequence of adds.
-/

theorem add_lookup_self (n : Node) (p e : List Nat) (hwf : wfB n = true) :
    lookupE (add n p e) p = some e :=
  (addF_lookup p.length n p e hwf le_rfl).1

theorem add_lookup_frame (n : Node) (p e q v : List Nat) (hwf : wfB n = true)
    (hq : q ≠ p) (hv : lookupE n q = some v) : lookupE (add n p e) q = some v :=
  (addF_lookup p.length n p e hwf le_rfl).2 q v hq hv

theorem wfB_add (n : Node) (p e : List Nat) (hwf : wfB n = true) :
    wfB (add n p e) = true := wfB_addF p.length n p e hwf

theorem foldl_add_wf (ps : List (List Nat × List Nat)) :
    ∀ (n : Node), wfB n = true →
      wfB (ps.foldl (fun n pe => add n pe.1 pe.2) n) = true := by
  induction ps with
  | nil => intro n hwf; exact hwf
  | cons pe rest ih =>
    intro n hwf
    exact ih _ (wfB_add n pe.1 pe.2 hwf)

theorem foldl_add_preserve (ps : List (List Nat × List Nat)) :
    ∀ (n : Node) (p v : List Nat), wfB n = true → lookupE n p = some v →
      p ∉ ps.map Prod.fst →
      lookupE (ps.foldl (fun n pe => add n pe.1 pe.2) n) p = some v := by
  induction ps with
  | nil => intro n p v _ hv _; exact hv
  | cons pe rest ih =>
    intro n p v hwf hv hnot
    simp only [List.map_cons, List.mem_cons, not_or] at hnot
    exact ih _ p v (wfB_add n pe.1 pe.2 hwf)
      (add_lookup_frame n pe.1 pe.2 p v hwf hnot.1 hv) hnot.2

theorem foldl_add_lookup (ps : List (List Nat × List Nat)) :
    ∀ (n : Node) (p e : List Nat), wfB n = true → (p, e) ∈ ps →
      (ps.map Prod.fst).Nodup →
      lookupE (ps.foldl (fun n pe => add n pe.1 pe.2) n) p = some e := by
  induction ps with
  | nil => intro n p e _ hmem _; simp at hmem
  | cons pe rest ih =>
    intro n p e hwf hmem hnodup
    simp only [List.map_cons, List.nodup_cons] at hnodup
    rcases List.mem_cons.mp hmem with heq | hmem2
    · obtain rfl : pe = (p, e) := heq.symm
      exact foldl_add_preserve rest _ p e (wfB_add n p e hwf)
        (add_lookup_self n p e hwf) hnodup.1
    · exact ih _ p e (wfB_add n pe.1 pe.2 hwf) hmem2 hnodup.2

theorem buildTrie_wf (ps : List (List Nat × List Nat)) : wfB (buildTrie ps) = true :=
  foldl_add_wf ps newNode rfl

theorem buildTrie_lookup (ps : List (List Nat × List Nat)) (p e : List Nat)
    (hmem : (p, e) ∈ ps) (hnodup : (ps.map Prod.fst).Nodup) :
    lookupE (buildTrie ps) p = some e :=
  foldl_add_lookup ps newNode p e rfl hmem hnodup

/-!
Remove: unfold lemmas and the main specification on well-formed tries.
-/

theorem removeF_nilpath (fuel : Nat) (n : Node) :
    removeF fuel n [] = .error .emptyPath := by
  cases fuel <;> rfl

theorem removeF_succ (fuel : Nat) (n : Node) (b : Nat) (p0 : List Nat) :
    removeF (fuel + 1) n (b :: p0)
      = (match findFork n.forks b with
        | none => .error .notFound
        | some (pfx, child) =>
          if pfx.isPrefixOf (b :: p0) then
            if (b :: p0).drop pfx.length = [] then
              .ok (setForksN n (delFork n.forks b))
            else
              match removeF fuel child ((b :: p0).drop pfx.length) with
              | .error err => .error err
              | .ok child2 => .ok (setForksN n (setFork n.forks b pfx child2))
          else .error .notFound) := rfl

theorem findFork_delFork_self (fks : Forks) (b : Nat) (hwf : wfFs fks = true) :
    findFork (delFork fks b) b = none := by
  induction fks using forksInduct with
  | hnil => simp [delFork, findFork]
  | hcons k p c rest ih =>
    rw [wfFs_cons] at hwf
    simp only [Bool.and_eq_true, beq_iff_eq] at hwf
    obtain ⟨⟨⟨hkh, hkc⟩, hwc⟩, hwr⟩ := hwf
    by_cases hk : k = b
    · subst hk
      simp only [delFork, if_true, eq_self_iff_true]
      rw [findFork_eq_none_iff]
      simpa using hkc
    · simp [delFork, findFork, hk, ih hwr]

theorem lookupN_cons_inv (n : Node) (b : Nat) (q0 pfx : List Nat) (child m : Node)
    (hwf : wfB n = true) (hf : findFork n.forks b = some (pfx, child))
    (h : lookupN n (b :: q0) = some m) :
    pfx <+: (b :: q0) ∧ lookupN child ((b :: q0).drop pfx.length) = some m := by
  by_cases hp : pfx <+: (b :: q0)
  · refine ⟨hp, ?_⟩
    rwa [lookupN_fork n b q0 pfx child hwf hf hp] at h
  · rw [lookupN_cons_nomatch n b q0 pfx child hf hp] at h
    cases h

/-- Specification of `Remove` on a well-formed trie: when the path
resolves to a node, `Remove` succeeds and afterwards exactly the paths
extending the removed one (the removed path itself included) are gone;
every other lookup is unchanged. -/
theorem removeF_spec (fuel : Nat) :
    ∀ (n : Node) (p : List Nat) (m : Node), wfB n = true → p.length ≤ fuel →
      p ≠ [] → lookupN n p = some m →
      ∃ n2, removeF fuel n p = .ok n2 ∧ wfB n2 = true ∧ n2.entry = n.entry ∧
        ∀ q, lookupE n2 q = if p <+: q then none else lookupE n q := by
  induction fuel with
  | zero =>
    intro n p m hwf hlen hne hlook
    cases p with
    | nil => exact absurd rfl hne
    | cons b p0 => simp at hlen
  | succ fuel ih =>
    intro n p m hwf hlen hne hlook
    cases p with
    | nil => exact absurd rfl hne
    | cons b p0 =>
      cases hf : findFork n.forks b with
      | none =>
        rw [lookupN_cons_none n b p0 hf] at hlook
        cases hlook
      | some pc =>
        obtain ⟨pfx, child⟩ := pc
        obtain ⟨hh, hc⟩ := wf_find n.forks b pfx child hwf hf
        obtain ⟨pfx0, rfl⟩ := head_of_head? hh
        obtain ⟨hpre, hlook2⟩ := lookupN_cons_inv n b p0 _ child m hwf hf hlook
        rw [removeF_succ, hf]
        simp only [List.isPrefixOf_iff_prefix.mpr hpre, if_true]
        by_cases hrest : (b :: p0).drop (b :: pfx0).length = []
        · -- the full path matched this fork: delete it
          rw [if_pos hrest]
          have hpeq : (b :: p0) = (b :: pfx0) :=
            (hpre.eq_of_length (le_antisymm hpre.length_le
              (by rwa [List.drop_eq_nil_iff] at hrest))).symm
          refine ⟨setForksN n (delFork n.forks b), rfl, ?_, by simp, ?_⟩
          · rw [wfB_eq_wfFs, forks_setForksN]
            exact wfFs_delFork n.forks b hwf
          · intro q
            cases q with
            | nil =>
              rw [if_neg (by simp)]
              simp
            | cons k q0 =>
              by_cases hk : k = b
              · subst hk
                rw [lookupE_cons_none (setForksN n (delFork n.forks k)) k q0
                  (by rw [forks_setForksN]; exact findFork_delFork_self n.forks k hwf)]
                by_cases hpq : (k :: p0) <+: (k :: q0)
                · rw [if_pos hpq]
                · rw [if_neg hpq]
                  rw [lookupE_cons_nomatch n k q0 _ child hf (by rwa [← hpeq])]
              · rw [lookupE_cons_ext (setForksN n (delFork n.forks b)) n k q0
                  (by rw [forks_setForksN]; exact findFork_delFork_ne n.forks b k hk)]
                rw [if_neg]
                intro hpq
                obtain ⟨u, hu⟩ := hpq
                exact hk (by simpa using congrArg List.head? hu.symm)
        · -- residual path goes below: recurse into the child
          rw [if_neg hrest]
          obtain ⟨n2c, hok, hwf2c, hent2c, hframe⟩ :=
            ih child ((b :: p0).drop (b :: pfx0).length) m hc
              (by simp only [List.length_drop, List.length_cons] at hlen ⊢; omega)
              hrest hlook2
          rw [hok]
          refine ⟨setForksN n (setFork n.forks b (b :: pfx0) n2c), rfl, ?_, by simp, ?_⟩
          · rw [wfB_eq_wfFs, forks_setForksN]
            exact wfFs_setFork n.forks b _ n2c hwf (by simp) hwf2c
          · intro q
            have hwfn2 : wfB (setForksN n (setFork n.forks b (b :: pfx0) n2c)) = true := by
              rw [wfB_eq_wfFs, forks_setForksN]
              exact wfFs_setFork n.forks b _ n2c hwf (by simp) hwf2c
            cases q with
            | nil =>
              rw [if_neg (by simp)]
              simp
            | cons k q0 =>
              by_cases hk : k = b
              · subst hk
                by_cases hpq : (k :: pfx0) <+: (k :: q0)
                · rw [lookupE_fork (setForksN n (setFork n.forks k (k :: pfx0) n2c))
                    k q0 _ n2c hwfn2 (by simp [forks_setForksN]) hpq]
                  rw [lookupE_fork n k q0 _ child hwf hf hpq]
                  rw [hframe ((k :: q0).drop (k :: pfx0).length)]
                  -- the two prefix conditions coincide
                  obtain ⟨u, hu⟩ := hpq
                  have hud : (k :: q0).drop (k :: pfx0).length = u := by
                    rw [← hu, List.drop_left]
                  have hpparts : (k :: p0) = (k :: pfx0) ++ (k :: p0).drop (k :: pfx0).length :=
                    (prefix_append_drop _ _ hpre).symm
                  by_cases hsub : (k :: p0).drop (k :: pfx0).length <+: (k :: q0).drop (k :: pfx0).length
                  · rw [if_pos hsub, if_pos]
                    rw [hpparts, ← hu]
                    rw [hud] at hsub
                    exact ((List.prefix_append_right_inj (k :: pfx0)).mpr hsub)
                  · rw [if_neg hsub, if_neg]
                    intro hpq2
                    refine hsub ?_
                    rw [hpparts, ← hu] at hpq2
                    rw [hud]
                    exact (List.prefix_append_right_inj (k :: pfx0)).mp hpq2
                · rw [lookupE_cons_nomatch (setForksN n (setFork n.forks k (k :: pfx0) n2c))
                    k q0 _ n2c (by simp [forks_setForksN]) hpq]
                  rw [lookupE_cons_nomatch n k q0 _ child hf hpq]
                  rw [ite_self]
              · rw [lookupE_cons_ext (setForksN n (setFork n.forks b (b :: pfx0) n2c)) n k q0
                  (by rw [forks_setForksN]; exact findFork_setFork_ne n.forks b k _ n2c hk)]
                rw [if_neg]
                intro hpq
                obtain ⟨u, hu⟩ := hpq
                exact hk (by simpa using congrArg List.head? hu.symm)

/-!
Prefix length bound: preserved by `Add` with the source's limit of 32.
-/

theorem boundB_eq_boundFs (m : Nat) (n : Node) : boundB m n = boundFs m n.forks := rfl

theorem boundFs_cons (m k : Nat) (pfx : List Nat) (child : Node) (rest : Forks) :
    boundFs m (.cons k pfx child rest)
      = (decide (pfx.length ≤ m) && boundFs m child.forks && boundFs m rest) := by
  cases child
  rfl

theorem bound_find (m : Nat) (fks : Forks) (b : Nat) (pfx : List Nat) (child : Node)
    (hb : boundFs m fks = true) (h : findFork fks b = some (pfx, child)) :
    pfx.length ≤ m ∧ boundB m child = true := by
  induction fks using forksInduct with
  | hnil => simp [findFork] at h
  | hcons k p c rest ih =>
    rw [boundFs_cons] at hb
    simp only [Bool.and_eq_true, decide_eq_true_eq] at hb
    obtain ⟨⟨hlen, hcf⟩, hr⟩ := hb
    by_cases hk : k = b
    · subst hk
      simp only [findFork, if_true, eq_self_iff_true, Option.some.injEq,
        Prod.mk.injEq] at h
      obtain ⟨rfl, rfl⟩ := h
      exact ⟨hlen, hcf⟩
    · simp only [findFork, if_neg hk] at h
      exact ih hr h

theorem boundFs_setFork (m : Nat) (fks : Forks) (b : Nat) (pfx : List Nat)
    (child : Node) (hb : boundFs m fks = true) (hlen : pfx.length ≤ m)
    (hc : boundB m child = true) : boundFs m (setFork fks b pfx child) = true := by
  rw [boundB_eq_boundFs] at hc
  induction fks using forksInduct with
  | hnil => simp [setFork, boundFs_cons, hlen, hc, boundB_eq_boundFs, boundFs]
  | hcons k p c rest ih =>
    rw [boundFs_cons] at hb
    simp only [Bool.and_eq_true, decide_eq_true_eq] at hb
    obtain ⟨⟨hl2, hcf⟩, hr⟩ := hb
    by_cases hk : k = b
    · subst hk
      simp only [setFork, if_true, eq_self_iff_true]
      rw [boundFs_cons]
      simp [hlen, hc, hr, boundB_eq_boundFs]
    · simp only [setFork, if_neg hk]
      rw [boundFs_cons]
      simp only [Bool.and_eq_true, decide_eq_true_eq]
      exact ⟨⟨hl2, hcf⟩, ih hr⟩

theorem boundB_updateWPS (m : Nat) (n : Node) (x : List Nat) :
    boundB m (updateWPS n x) = boundB m n := by
  rw [boundB_eq_boundFs, boundB_eq_boundFs, forks_updateWPS]

theorem boundB_makeEdge (m : Nat) (n : Node) : boundB m (makeEdge n) = boundB m n := by
  rw [boundB_eq_boundFs, boundB_eq_boundFs, forks_makeEdge]

theorem boundB_newLeaf (m : Nat) (path entry : List Nat) :
    boundB m (newLeaf path entry) = true := by
  rw [boundB_eq_boundFs, forks_newLeaf]
  rfl

theorem boundB_splitNode (m : Nat) (rest : List Nat) (child : Node)
    (hlen : rest.length ≤ m) (hc : boundB m child = true) :
    boundB m (splitNode rest child) = true := by
  rw [splitNode, boundB_makeEdge, boundB_eq_boundFs, forks_mk, boundFs_cons]
  rw [boundB_eq_boundFs] at hc
  simp only [Bool.and_eq_true, decide_eq_true_eq]
  refine ⟨⟨hlen, ?_⟩, rfl⟩
  rw [forks_updateWPS]
  exact hc

/-- `Add` keeps every fork prefix at 32 bytes or less (the limit the
source enforces when attaching new forks). -/
theorem boundB_addF (fuel : Nat) :
    ∀ (n : Node) (p e : List Nat), wfB n = true → boundB 32 n = true →
      boundB 32 (addF fuel n p e) = true := by
  induction fuel with
  | zero =>
    intro n p e hwf hb
    cases n with | mk t nc r e0 fks =>
    cases p with
    | nil => simpa using hb
    | cons b p0 =>
      rw [addF_zero]
      exact hb
  | succ fuel ih =>
    intro n p e hwf hb
    cases n with | mk t nc r e0 fks =>
    cases p with
    | nil => simpa using hb
    | cons b p0 =>
      rw [wfB_mk] at hwf
      rw [boundB_eq_boundFs, forks_mk] at hb
      cases hf : findFork fks b with
      | none =>
        by_cases hl : 32 < (b :: p0).length
        · rw [addF_succ_none_long fuel t nc r e0 e fks b p0 hf hl, boundB_makeEdge,
            boundB_eq_boundFs, forks_mk]
          refine boundFs_setFork 32 fks b _ _ hb (by simp) ?_
          rw [boundB_updateWPS]
          exact ih newNode _ e rfl rfl
        · rw [addF_succ_none_short fuel t nc r e0 e fks b p0 hf hl, boundB_makeEdge,
            boundB_eq_boundFs, forks_mk]
          refine boundFs_setFork 32 fks b _ _ hb ?_ (boundB_newLeaf 32 _ e)
          simp only [List.length_cons] at hl ⊢
          omega
      | some pc =>
        obtain ⟨pfx, child⟩ := pc
        obtain ⟨hh, hcwf⟩ := wf_find fks b pfx child hwf hf
        obtain ⟨hplen, hcb⟩ := bound_find 32 fks b pfx child hb hf
        rw [addF_succ_found fuel t nc r e0 e fks b p0 pfx child hf, boundB_makeEdge,
          boundB_eq_boundFs, forks_mk]
        refine boundFs_setFork 32 fks b _ _ hb ?_ ?_
        · exact le_trans (common_prefix_left pfx (b :: p0)).length_le hplen
        · refine ih _ _ e ?_ ?_
          · rw [wfB_updateWPS]
            split
            · exact hcwf
            · next hrest => exact wfB_splitNode _ hrest child hcwf
          · rw [boundB_updateWPS]
            split
            · exact hcb
            · refine boundB_splitNode 32 _ child ?_ hcb
              exact le_trans (List.length_drop _ _ ▸ Nat.sub_le _ _) hplen

/-!
Lookup ignores the node-type flags entirely.
-/

theorem forks_stripN (n : Node) : (stripN n).forks = stripFs n.forks := by
  cases n
  rfl

theorem entry_stripN (n : Node) : (stripN n).entry = n.entry := by
  cases n
  rfl

theorem findFork_stripFs (fks : Forks) (b : Nat) :
    findFork (stripFs fks) b
      = (findFork fks b).map (fun pc => (pc.1, stripN pc.2)) := by
  induction fks using forksInduct with
  | hnil => simp [stripFs, findFork]
  | hcons k p c rest ih =>
    cases c with | mk t nc r e cfks =>
    by_cases hk : k = b
    · subst hk
      simp [stripFs, findFork, stripN]
    · simp [stripFs, findFork, hk, ih]

theorem lookupNF_stripN (fuel : Nat) :
    ∀ (n : Node) (q : List Nat),
      lookupNF fuel (stripN n) q = (lookupNF fuel n q).map stripN := by
  induction fuel with
  | zero =>
    intro n q
    cases q <;> simp [lookupNF]
  | succ fuel ih =>
    intro n q
    cases q with
    | nil => simp
    | cons b q0 =>
      rw [lookupNF_succ, lookupNF_succ, forks_stripN, findFork_stripFs]
      cases hf : findFork n.forks b with
      | none => simp
      | some pc =>
        obtain ⟨pfx, child⟩ := pc
        simp only [Option.map_some']
        split
        · exact ih child _
        · simp

/-- The result entry of `Lookup` does not depend on any node-type flag
in the trie. -/
theorem lookupE_stripN (n : Node) (q : List Nat) :
    lookupE (stripN n) q = lookupE n q := by
  unfold lookupE lookupN
  rw [lookupNF_stripN]
  cases lookupNF q.length n q with
  | none => rfl
  | some m => simp [entry_stripN]

/-!
Reference-field behaviour of the mutation operations.
-/

theorem add_nil_ref (n : Node) (e : List Nat) : (add n [] e).ref = none := by
  cases n
  rw [add, addF_nil, ref_mk]

theorem add_cons_ref (n : Node) (b : Nat) (p0 e : List Nat) :
    (add n (b :: p0) e).ref = n.ref := by
  cases n with | mk t nc r e0 fks =>
  rw [add]
  show (addF (p0.length + 1) (.mk t nc r e0 fks) (b :: p0) e).ref = _
  cases hf : findFork fks b with
  | none =>
    by_cases hl : 32 < (b :: p0).length
    · rw [addF_succ_none_long p0.length t nc r e0 e fks b p0 hf hl]
      simp
    · rw [addF_succ_none_short p0.length t nc r e0 e fks b p0 hf hl]
      simp
  | some pc =>
    obtain ⟨pfx, child⟩ := pc
    rw [addF_succ_found p0.length t nc r e0 e fks b p0 pfx child hf]
    simp

theorem removeF_ok_ref (fuel : Nat) (n n2 : Node) (p : List Nat)
    (h : removeF fuel n p = .ok n2) : n2.ref = n.ref := by
  cases p with
  | nil => rw [removeF_nilpath] at h; cases h
  | cons b p0 =>
    cases fuel with
    | zero => cases h
    | succ fuel =>
      rw [removeF_succ] at h
      cases hf : findFork n.forks b with
      | none => simp [hf] at h
      | some pc =>
        obtain ⟨pfx, child⟩ := pc
        simp only [hf] at h
        by_cases hp : pfx.isPrefixOf (b :: p0)
        · rw [if_pos hp] at h
          by_cases hrest : (b :: p0).drop pfx.length = []
          · rw [if_pos hrest] at h
            cases h
            simp
          · rw [if_neg hrest] at h
            cases hrec : removeF fuel child ((b :: p0).drop pfx.length) with
            | error err => rw [hrec] at h; cases h
            | ok child2 =>
              rw [hrec] at h
              cases h
              simp
        · rw [if_neg hp] at h
          cases h

/-- Chaining on a long path: the attached fork carries exactly the
first 32 bytes of the remaining path and the rest is added below it. -/
theorem add_chain (n : Node) (b : Nat) (p0 e : List Nat) (hwf : wfB n = true)
    (hf : findFork n.forks b = none) (hl : 32 < (b :: p0).length) :
    ∃ child, findFork (add n (b :: p0) e).forks b = some ((b :: p0).take 32, child) ∧
      lookupE child ((b :: p0).drop 32) = some e := by
  cases n with | mk t nc r e0 fks =>
  rw [add]
  show ∃ child,
    findFork (addF (p0.length + 1) (.mk t nc r e0 fks) (b :: p0) e).forks b
      = some ((b :: p0).take 32, child) ∧ _
  rw [addF_succ_none_long p0.length t nc r e0 e fks b p0 hf hl]
  refine ⟨updateWPS (addF p0.length newNode ((b :: p0).drop 32) e) ((b :: p0).take 32),
    by simp, ?_⟩
  rw [lookupE_updateWPS]
  refine (addF_lookup p0.length newNode ((b :: p0).drop 32) e rfl ?_).1
  simp only [List.length_drop, List.length_cons]
  omega

/-!
Codec toolkit: XOR keystream, bitmap-256 and fork-list lemmas.
-/

theorem xorKeyFrom_length (key : List Nat) :
    ∀ (i : Nat) (bs : List Nat), (xorKeyFrom key i bs).length = bs.length := by
  intro i bs
  induction bs generalizing i with
  | nil => rfl
  | cons b bs ih => simp [xorKeyFrom, ih]

theorem xorKeyFrom_invol (key : List Nat) :
    ∀ (i : Nat) (bs : List Nat), xorKeyFrom key i (xorKeyFrom key i bs) = bs := by
  intro i bs
  induction bs generalizing i with
  | nil => rfl
  | cons b bs ih => simp [xorKeyFrom, Nat.xor_cancel_right, ih]

theorem xorKeyFrom_set (key : List Nat) :
    ∀ (i t v : Nat) (bs : List Nat), t < bs.length →
      xorKeyFrom key i (bs.set t v)
        = (xorKeyFrom key i bs).set t (v ^^^ key.getD ((i + t) % 32 % key.length) 0) := by
  intro i t v bs
  induction bs generalizing i t with
  | nil => intro ht; simp at ht
  | cons b bs ih =>
    intro ht
    cases t with
    | zero => simp [xorKeyFrom]
    | succ t =>
      simp only [List.set_cons_succ, xorKeyFrom, List.length_cons] at ht ⊢
      rw [ih (i + 1) t (by omega)]
      have harith : i + 1 + t = i + (t + 1) := by omega
      rw [harith]

theorem getD_map_range (f : Nat → Nat) (n j : Nat) (hj : j < n) :
    ((List.range n).map f).getD j 0 = f j := by
  rw [List.getD_eq_getElem?_getD, List.getElem?_map, List.getElem?_range hj]
  rfl

theorem shift_and_one (y r : Nat) : ((y >>> r &&& 1 == 1) : Bool) = Nat.testBit y r := by
  unfold Nat.testBit
  rw [Nat.and_comm 1 (y >>> r), Nat.and_one_is_mod]
  rcases Nat.mod_two_eq_zero_or_one (y >>> r) with h | h <;> simp [Nat.and_one_is_mod, h]

theorem testBitmap_eq_testBit (bm : List Nat) (k : Nat) :
    testBitmap bm k = Nat.testBit (bm.getD (k / 8) 0) (k % 8) := by
  unfold testBitmap
  exact shift_and_one _ _

theorem testBit_foldl_or (L : List Nat) :
    ∀ (a r : Nat), Nat.testBit (L.foldl (fun a i => a ||| (1 <<< i)) a) r
      = (Nat.testBit a r || L.contains r) := by
  induction L with
  | nil => intro a r; simp
  | cons i L ih =>
    intro a r
    simp only [List.foldl_cons, List.contains_cons]
    rw [ih, Nat.testBit_or, Nat.one_shiftLeft, Nat.testBit_two_pow]
    by_cases h : i = r
    · subst h
      simp
    · have hbe : (r == i) = false := by simpa using Ne.symm h
      simp [h, hbe]

theorem contains_filter_range8 (keys : List Nat) (j r : Nat) (hr : r < 8) :
    ((List.range 8).filter (fun i => keys.contains (8 * j + i))).contains r
      = keys.contains (8 * j + r) := by
  refine Bool.eq_iff_iff.mpr ?_
  constructor
  · intro h
    have hm : r ∈ (List.range 8).filter (fun i => keys.contains (8 * j + i)) := by
      simpa using h
    simpa using (List.mem_filter.mp hm).2
  · intro h
    have hm : r ∈ (List.range 8).filter (fun i => keys.contains (8 * j + i)) :=
      List.mem_filter.mpr ⟨by simpa using hr, by simpa using h⟩
    simpa using hm

theorem testBit_bitmapByte (keys : List Nat) (j r : Nat) (hr : r < 8) :
    Nat.testBit (bitmapByte keys j) r = keys.contains (8 * j + r) := by
  unfold bitmapByte
  rw [testBit_foldl_or]
  simp only [Nat.zero_testBit, Bool.false_or]
  exact contains_filter_range8 keys j r hr

theorem testBitmap_bitmapOfKeys (keys : List Nat) (k : Nat) (hk : k < 256) :
    testBitmap (bitmapOfKeys keys) k = keys.contains k := by
  rw [testBitmap_eq_testBit]
  unfold bitmapOfKeys
  rw [getD_map_range _ 32 (k / 8) (by omega)]
  rw [testBit_bitmapByte keys (k / 8) (k % 8) (by omega)]
  congr 1
  omega

theorem iterKeys_bitmapOfKeys (keys : List Nat) :
    iterKeys (bitmapOfKeys keys)
      = (List.range 256).filter (fun k => keys.contains k) := by
  unfold iterKeys
  refine List.filter_congr ?_
  intro k hk
  exact testBitmap_bitmapOfKeys keys k (by simpa using hk)

/-!
Fork-list lemmas for the codec.
-/

theorem findA_mem (fks : List (Nat × ForkC)) (k : Nat) (f : ForkC)
    (h : findA fks k = some f) : (k, f) ∈ fks := by
  unfold findA at h
  cases hfind : fks.find? (fun kf => kf.1 == k) with
  | none => rw [hfind] at h; cases h
  | some q =>
    rw [hfind] at h
    have hq := List.find?_some hfind
    have hmem := List.mem_of_find?_eq_some hfind
    simp only [Option.map_some', Option.some.injEq] at h
    obtain ⟨q1, q2⟩ := q
    simp only [beq_iff_eq] at hq
    subst hq
    subst h
    exact hmem

theorem findA_isSome_of_contains (fks : List (Nat × ForkC)) (k : Nat)
    (h : (fks.map Prod.fst).contains k = true) : (findA fks k).isSome = true := by
  unfold findA
  rw [Option.isSome_map']
  rw [List.find?_isSome]
  have : k ∈ fks.map Prod.fst := by simpa using h
  obtain ⟨kf, hkf, hfst⟩ := List.mem_map.mp this
  exact ⟨kf, hkf, by simp [hfst]⟩

theorem findA_eq_none_of_not_contains (fks : List (Nat × ForkC)) (k : Nat)
    (h : ¬ (fks.map Prod.fst).contains k = true) : findA fks k = none := by
  unfold findA
  rw [Option.map_eq_none', List.find?_eq_none]
  intro kf hkf
  simp only [beq_iff_eq]
  intro hfst
  exact h (by simp only [List.contains_iff_exists_mem_beq]; exact ⟨k, List.mem_map.mpr ⟨kf, hkf, hfst⟩, by simp⟩)

theorem findA_map_self (g : Nat → ForkC) :
    ∀ (ks : List Nat) (k : Nat), k ∈ ks →
      findA (ks.map (fun k => (k, g k))) k = some (g k) := by
  intro ks
  induction ks with
  | nil => intro k h; simp at h
  | cons k0 ks ih =>
    intro k h
    by_cases hk : k0 = k
    · subst hk
      simp [findA, List.find?]
    · rcases List.mem_cons.mp h with h2 | h2
      · exact absurd h2.symm hk
      · unfold findA at ih ⊢
        simp only [List.map_cons, List.find?_cons]
        have hbe : (k0 == k) = false := by simpa using hk
        rw [show ((k0, g k0).1 == k) = (k0 == k) from rfl, hbe]
        exact ih k h2

theorem findA_map_none (g : Nat → ForkC) :
    ∀ (ks : List Nat) (k : Nat), k ∉ ks →
      findA (ks.map (fun k => (k, g k))) k = none := by
  intro ks
  induction ks with
  | nil => intro k _; rfl
  | cons k0 ks ih =>
    intro k h
    simp only [List.mem_cons, not_or] at h
    unfold findA at ih ⊢
    simp only [List.map_cons, List.find?_cons]
    have hbe : (k0 == k) = false := by simpa using Ne.symm h.1
    rw [show ((k0, g k0).1 == k) = (k0 == k) from rfl, hbe]
    exact ih k h.2

theorem getD_append_at (A : List Nat) (x : Nat) (B : List Nat) :
    (A ++ x :: B).getD A.length 0 = x := by
  rw [List.getD_eq_getElem?_getD, List.getElem?_append_right le_rfl]
  simp

theorem length_bitmapOfKeys (keys : List Nat) : (bitmapOfKeys keys).length = 32 := by
  unfold bitmapOfKeys
  simp

theorem length_version01HashBytes : version01HashBytes.length = 31 := rfl

/-!
Parsing the fork blocks back.
-/

theorem exc_bind_ok {α β ε : Type} (a : α) (f : α → Except ε β) :
    (Except.ok a >>= f) = f a := rfl

theorem exc_bind_error {α β ε : Type} (e : ε) (f : α → Except ε β) :
    ((Except.error e : Except ε α) >>= f) = Except.error e := rfl

theorem forkBytesC_ok (f : ForkC) (hp2 : f.pfx.length ≤ 30)
    (hr : f.childRef.length ≤ 256) :
    forkBytesC f = .ok ([f.childType, f.pfx.length]
      ++ (f.pfx ++ List.replicate 30 0).take 30 ++ f.childRef) := by
  unfold forkBytesC
  rw [if_neg (by omega), Nat.mod_eq_of_lt (by omega : f.pfx.length < 256)]

theorem length_forkBytes (f : ForkC) :
    ([f.childType, f.pfx.length]
      ++ (f.pfx ++ List.replicate 30 0).take 30 ++ f.childRef).length
      = 32 + f.childRef.length := by
  simp only [List.length_append, List.length_cons, List.length_take,
    List.length_replicate, List.length_nil]
  omega

theorem take30_pad (pfx : List Nat) (h : pfx.length ≤ 30) :
    (pfx ++ List.replicate 30 0).take 30 = pfx ++ List.replicate (30 - pfx.length) 0 := by
  have h30 : 30 = pfx.length + (30 - pfx.length) := by omega
  conv_lhs => rw [h30]
  rw [List.take_append]
  congr 1
  rw [List.take_replicate]
  congr 1
  omega

theorem forkFromBytesC_roundtrip (f : ForkC) (R : Nat)
    (hp1 : 1 ≤ f.pfx.length) (hp2 : f.pfx.length ≤ 30) (hr : f.childRef.length = R) :
    forkFromBytesC ([f.childType, f.pfx.length]
      ++ (f.pfx ++ List.replicate 30 0).take 30 ++ f.childRef) = .ok f := by
  rw [take30_pad f.pfx hp2]
  unfold forkFromBytesC
  have hplen : ([f.childType, f.pfx.length]
      ++ (f.pfx ++ List.replicate (30 - f.pfx.length) 0) ++ f.childRef).getD 1 0
      = f.pfx.length := rfl
  rw [hplen]
  rw [if_neg (by omega)]
  have htype : ([f.childType, f.pfx.length]
      ++ (f.pfx ++ List.replicate (30 - f.pfx.length) 0) ++ f.childRef).getD 0 0
      = f.childType := rfl
  rw [htype]
  have hdrop2 : ([f.childType, f.pfx.length]
      ++ (f.pfx ++ List.replicate (30 - f.pfx.length) 0) ++ f.childRef).drop 2
      = (f.pfx ++ List.replicate (30 - f.pfx.length) 0) ++ f.childRef := rfl
  rw [hdrop2]
  have hpfx : ((f.pfx ++ List.replicate (30 - f.pfx.length) 0) ++ f.childRef).take
      f.pfx.length = f.pfx := by
    rw [List.append_assoc]
    exact List.take_left' rfl
  rw [hpfx]
  have hlen32 : (f.pfx ++ List.replicate (30 - f.pfx.length) 0).length = 30 := by
    simp only [List.length_append, List.length_replicate]
    omega
  have hdropref : ([f.childType, f.pfx.length]
      ++ (f.pfx ++ List.replicate (30 - f.pfx.length) 0) ++ f.childRef).drop 32
      = f.childRef := by
    rw [show (32 : Nat) = 2 + 30 from rfl, ← List.drop_drop, hdrop2,
      List.drop_left' hlen32]
  rw [hdropref]

theorem readForks_roundtrip (fks : List (Nat × ForkC)) (R : Nat) (plain : List Nat)
    (hR : R ≤ 256) :
    ∀ (ks : List Nat) (off : Nat) (blocks : List Nat),
      forkBlocksC fks ks = .ok blocks →
      plain.drop off = blocks →
      (∀ k ∈ ks, ∃ f, findA fks k = some f ∧ 1 ≤ f.pfx.length ∧ f.pfx.length ≤ 30 ∧
        f.childRef.length = R) →
      readForks plain R ks off
        = .ok (ks.map (fun k => (k, (findA fks k).getD ⟨[], 0, []⟩))) := by
  intro ks
  induction ks with
  | nil =>
    intro off blocks _ _ _
    rfl
  | cons k ks ih =>
    intro off blocks hblocks hplain hcond
    obtain ⟨f, hfind, hp1, hp2, hrlen⟩ := hcond k (by simp)
    unfold forkBlocksC at hblocks
    rw [hfind] at hblocks
    simp only [Option.getD_some] at hblocks
    rw [forkBytesC_ok f hp2 (by omega)] at hblocks
    rw [exc_bind_ok] at hblocks
    cases hrest : forkBlocksC fks ks with
    | error err =>
      rw [hrest, exc_bind_error] at hblocks
      cases hblocks
    | ok restBlocks =>
      rw [hrest, exc_bind_ok] at hblocks
      simp only [Except.ok.injEq] at hblocks
      have hblen : ([f.childType, f.pfx.length]
          ++ (f.pfx ++ List.replicate 30 0).take 30 ++ f.childRef).length
          = 32 + R := by rw [length_forkBytes, hrlen]
      have hofflen : off + (32 + R) ≤ plain.length := by
        have h1 : (plain.drop off).length = blocks.length := by rw [hplain]
        rw [List.length_drop] at h1
        have h2 : 32 + R ≤ blocks.length := by
          rw [← hblocks, List.length_append, hblen]
          omega
        have h3 : off ≤ plain.length := by
          by_contra hcon
          have : plain.drop off = [] := List.drop_eq_nil_of_le (by omega)
          rw [this] at hplain
          have := congrArg List.length hplain
          simp only [List.length_nil] at this
          omega
        omega
      unfold readForks
      rw [if_neg (by omega)]
      have hslice : sliceD plain off (off + 32 + R)
          = .ok ([f.childType, f.pfx.length]
            ++ (f.pfx ++ List.replicate 30 0).take 30 ++ f.childRef) := by
        unfold sliceD
        rw [if_pos (by constructor <;> omega)]
        congr 1
        have : off + 32 + R - off = 32 + R := by omega
        rw [this, hplain, ← hblocks]
        exact List.take_left' hblen
      rw [hslice, exc_bind_ok]
      rw [forkFromBytesC_roundtrip f R hp1 hp2 hrlen, exc_bind_ok]
      have hdropnext : plain.drop (off + 32 + R) = restBlocks := by
        have : off + 32 + R = off + (32 + R) := by omega
        rw [this, ← List.drop_drop, hplain, ← hblocks]
        exact List.drop_left' hblen
      rw [ih (off + 32 + R) restBlocks hrest hdropnext
        (fun k2 hk2 => hcond k2 (by simp [hk2])), exc_bind_ok]
      simp only [List.map_cons]
      rw [hfind]
      rfl

theorem forkBlocksC_isOk (fks : List (Nat × ForkC)) :
    ∀ (ks : List Nat),
      (∀ k ∈ ks, ∀ f, findA fks k = some f → f.childRef.length ≤ 256) →
      ∃ blocks, forkBlocksC fks ks = .ok blocks := by
  intro ks
  induction ks with
  | nil => intro _; exact ⟨[], rfl⟩
  | cons k ks ih =>
    intro hcond
    obtain ⟨rest, hrest⟩ := ih (fun k2 hk2 => hcond k2 (by simp [hk2]))
    have hok : ∃ bk, forkBytesC ((findA fks k).getD ⟨[], 0, []⟩) = .ok bk := by
      unfold forkBytesC
      cases hf : findA fks k with
      | none => exact ⟨_, by rw [if_neg (by simp)]⟩
      | some f =>
        have := hcond k (by simp) f hf
        exact ⟨_, by rw [if_neg (by simp only [Option.getD_some]; omega)]⟩
    obtain ⟨bk, hbk⟩ := hok
    refine ⟨bk ++ rest, ?_⟩
    unfold forkBlocksC
    rw [hbk, exc_bind_ok, hrest, exc_bind_ok]


theorem findA_iter_eq (fks : List (Nat × ForkC))
    (hkeys : ∀ kf ∈ fks, kf.1 < 256) (k : Nat) :
    findA ((iterKeys (bitmapOfKeys (fks.map Prod.fst))).map
        (fun k => (k, (findA fks k).getD ⟨[], 0, []⟩))) k
      = findA fks k := by
  by_cases hk : k ∈ iterKeys (bitmapOfKeys (fks.map Prod.fst))
  · rw [findA_map_self _ _ k hk]
    rw [iterKeys_bitmapOfKeys] at hk
    have hcont : (fks.map Prod.fst).contains k = true := by
      simpa using (List.mem_filter.mp hk).2
    obtain ⟨f, hf⟩ := Option.isSome_iff_exists.mp (findA_isSome_of_contains fks k hcont)
    rw [hf]
    rfl
  · rw [findA_map_none _ _ k hk]
    by_cases h256 : k < 256
    · have hnc : ¬ (fks.map Prod.fst).contains k = true := by
        intro hcont
        exact hk (by
          rw [iterKeys_bitmapOfKeys]
          exact List.mem_filter.mpr ⟨by simpa using h256, hcont⟩)
      exact (findA_eq_none_of_not_contains fks k hnc).symm
    · have hnc : ¬ (fks.map Prod.fst).contains k = true := by
        intro hcont
        have : k ∈ fks.map Prod.fst := by simpa using hcont
        obtain ⟨kf, hkf, hfst⟩ := List.mem_map.mp this
        exact h256 (hfst ▸ hkeys kf hkf)
      exact (findA_eq_none_of_not_contains fks k hnc).symm

/-- Amended marshal round-trip: for a marshalable node whose entry has
exactly `ref_bytes_size` bytes, whose obfuscation key is set (32
bytes), and whose forks carry byte keys, prefixes of length 1..30 and
child references of exactly `ref_bytes_size` bytes, unmarshalling the
marshalled bytes restores the obfuscation key, the entry, and the
fork table (same keys, prefixes, child node types and references). -/
theorem marshalC_roundtrip (n : NodeC) (fks : List (Nat × ForkC)) (bs : List Nat)
    (hforks : n.forks = some fks)
    (hkey : n.obfuscationKey.length = 32)
    (hR : n.refBytesSize ≤ 255)
    (hent : n.entry.length = n.refBytesSize)
    (hkeys : ∀ kf ∈ fks, kf.1 < 256)
    (hpfx : ∀ kf ∈ fks, 1 ≤ kf.2.pfx.length ∧ kf.2.pfx.length ≤ 30)
    (href : ∀ kf ∈ fks, kf.2.childRef.length = n.refBytesSize)
    (hm : marshalC n = .ok bs) :
    ∃ fks2, unmarshalC bs
        = .ok ⟨n.obfuscationKey, 0, n.entry, some fks2⟩ ∧
      ∀ k, findA fks2 k = findA fks k := by
  unfold marshalC at hm
  rw [hforks] at hm
  simp only [List.take_left' hkey] at hm
  have hksmem : ∀ k ∈ iterKeys (bitmapOfKeys (fks.map Prod.fst)),
      ∃ f, findA fks k = some f ∧ 1 ≤ f.pfx.length ∧ f.pfx.length ≤ 30 ∧
        f.childRef.length = n.refBytesSize := by
    intro k hk
    rw [iterKeys_bitmapOfKeys] at hk
    have hcont : (fks.map Prod.fst).contains k = true := by
      simpa using (List.mem_filter.mp hk).2
    obtain ⟨f, hf⟩ := Option.isSome_iff_exists.mp (findA_isSome_of_contains fks k hcont)
    have hmem := findA_mem fks k f hf
    exact ⟨f, hf, (hpfx (k, f) hmem).1, (hpfx (k, f) hmem).2, href (k, f) hmem⟩
  cases hb : forkBlocksC fks (iterKeys (bitmapOfKeys (fks.map Prod.fst))) with
  | error err => rw [hb] at hm; cases hm
  | ok blocks =>
    rw [hb] at hm
    simp only [Except.ok.injEq] at hm
    subst hm
    rw [List.take_left' hent] at *
    rw [Nat.mod_eq_of_lt (by omega : n.refBytesSize < 256)] at *
    -- canonical shapes of the plain bytes
    set key := n.obfuscationKey with hkeydef
    set R := n.refBytesSize with hRdef
    set bm := bitmapOfKeys (fks.map Prod.fst) with hbmdef
    set plain := (key ++ version01HashBytes ++ [R]) ++ n.entry ++ bm ++ blocks
      with hplaindef
    have hbmlen : bm.length = 32 := by
      rw [hbmdef]
      exact length_bitmapOfKeys _
    have hshape1 : plain = key ++ (version01HashBytes ++ ([R]
        ++ (n.entry ++ (bm ++ blocks)))) := by
      rw [hplaindef]
      simp [List.append_assoc]
    have hlen31 : version01HashBytes.length = 31 := rfl
    have hplainlen : plain.length = 64 + R + 32 + blocks.length := by
      rw [hplaindef]
      simp only [List.length_append, List.length_cons, List.length_nil]
      omega
    have htake32 : plain.take 32 = key := by
      rw [hshape1]
      exact List.take_left' hkey
    have hdrop32 : plain.drop 32 = version01HashBytes ++ ([R]
        ++ (n.entry ++ (bm ++ blocks))) := by
      rw [hshape1]
      exact List.drop_left' hkey
    set bs := plain.take 32 ++ xorKeyFrom key 0 (plain.drop 32) with hbsdef
    have hbslen : bs.length = plain.length := by
      rw [hbsdef]
      simp only [List.length_append, List.length_take, xorKeyFrom_length,
        List.length_drop]
      omega
    have hbstake : bs.take 32 = key := by
      rw [hbsdef, htake32]
      exact List.take_left' hkey
    have hbsdrop : bs.drop 32 = xorKeyFrom key 0 (plain.drop 32) := by
      rw [hbsdef, htake32]
      exact List.drop_left' hkey
    have hdeobf : deobf bs = plain := by
      unfold deobf
      rw [hbstake, hbsdrop, xorKeyFrom_invol]
      conv_rhs => rw [hshape1]
      rw [hdrop32]
    -- now evaluate unmarshalC
    unfold unmarshalC
    rw [if_neg (by rw [hbslen, hplainlen]; omega)]
    rw [hdeobf]
    have hvslice : sliceD plain 32 63 = .ok version01HashBytes := by
      unfold sliceD
      rw [if_pos ⟨by omega, by rw [hplainlen]; omega⟩]
      rw [hdrop32]
      rw [show (63 - 32 : Nat) = 31 from rfl]
      exact congrArg Except.ok (List.take_left' hlen31)
    rw [hvslice, exc_bind_ok]
    rw [if_neg (by simp)]
    have hgetD63 : plain.getD 63 0 = R := by
      have hshape2 : plain = (key ++ version01HashBytes) ++ (R
          :: (n.entry ++ (bm ++ blocks))) := by
        rw [hplaindef]
        simp [List.append_assoc]
      rw [hshape2]
      have h63 : (key ++ version01HashBytes).length = 63 := by
        rw [List.length_append, hkey, hlen31]
      rw [← h63]
      exact getD_append_at _ R _
    rw [hgetD63]
    have hshape3 : plain = ((key ++ version01HashBytes ++ [R]) ++ n.entry)
        ++ (bm ++ blocks) := by
      rw [hplaindef]
      simp [List.append_assoc]
    have hlenheader : (key ++ version01HashBytes ++ [R]).length = 64 := by
      simp only [List.length_append, List.length_cons, List.length_nil, hkey, hlen31]
    have hentslice : sliceD plain 64 (64 + R) = .ok n.entry := by
      unfold sliceD
      rw [if_pos ⟨by omega, by rw [hplainlen]; omega⟩]
      have hdrop64 : plain.drop 64 = n.entry ++ (bm ++ blocks) := by
        have hshape4 : plain = (key ++ version01HashBytes ++ [R])
            ++ (n.entry ++ (bm ++ blocks)) := by
          rw [hplaindef]
          simp [List.append_assoc]
        rw [hshape4, List.drop_left' hlenheader]
      rw [hdrop64]
      rw [show (64 + R - 64 : Nat) = R from by omega]
      exact congrArg Except.ok (List.take_left' hent)
    rw [hentslice, exc_bind_ok]
    have hbmslice : sliceD plain (64 + R) plain.length = .ok (bm ++ blocks) := by
      unfold sliceD
      rw [if_pos ⟨by rw [hplainlen]; omega, le_rfl⟩]
      have hlen64R : ((key ++ version01HashBytes ++ [R]) ++ n.entry).length
          = 64 + R := by
        rw [List.length_append, hlenheader, hent]
      have hdrop64R : plain.drop (64 + R) = bm ++ blocks := by
        rw [hshape3, List.drop_left' hlen64R]
      rw [hdrop64R]
      refine congrArg Except.ok (List.take_of_length_le ?_)
      rw [hplainlen]
      simp only [List.length_append, length_bitmapOfKeys]
      omega
    rw [hbmslice, exc_bind_ok]
    have hbmpad : ((bm ++ blocks) ++ List.replicate 32 0).take 32 = bm := by
      rw [List.append_assoc]
      exact List.take_left' (length_bitmapOfKeys _)
    rw [hbmpad]
    have hdropforks : plain.drop (64 + R + 32) = blocks := by
      have hlen3 : (((key ++ version01HashBytes ++ [R]) ++ n.entry) ++ bm).length
          = 64 + R + 32 := by
        simp only [List.length_append, List.length_cons, List.length_nil]
        omega
      rw [hplaindef, List.drop_left' hlen3]
    rw [readForks_roundtrip fks R plain (by omega) _ (64 + R + 32) blocks hb
      hdropforks hksmem, exc_bind_ok]
    refine ⟨(iterKeys bm).map (fun k => (k, (findA fks k).getD ⟨[], 0, []⟩)), ?_, ?_⟩
    · rw [hbstake]
    · intro k
      rw [hbmdef]
      exact findA_iter_eq fks hkeys k

/-!
Totality of unmarshalling: the only out-of-range access is the entry
read on inputs shorter than the header plus the declared entry size.
-/

theorem unmarshalC_tooShort (data : List Nat) (h : data.length < 64) :
    unmarshalC data = .error .tooShort := by
  unfold unmarshalC
  rw [if_pos h]

theorem forkFromBytesC_error (b : List Nat) (e : ErrU)
    (h : forkFromBytesC b = .error e) : e = .invalid := by
  unfold forkFromBytesC at h
  split at h
  · injection h with he
    exact he.symm
  · cases h

theorem readForks_no_oob (plain : List Nat) (R : Nat) :
    ∀ (ks : List Nat) (off : Nat), readForks plain R ks off ≠ .error .oob := by
  intro ks
  induction ks with
  | nil =>
    intro off h
    unfold readForks at h
    exact Except.noConfusion h
  | cons k ks ih =>
    intro off h
    unfold readForks at h
    by_cases hg : plain.length < off + 32 + R
    · rw [if_pos hg] at h
      simp at h
    · rw [if_neg hg] at h
      have hslice : sliceD plain off (off + 32 + R)
          = .ok ((plain.drop off).take (off + 32 + R - off)) := by
        unfold sliceD
        rw [if_pos ⟨by omega, by omega⟩]
      rw [hslice, exc_bind_ok] at h
      cases hfb : forkFromBytesC ((plain.drop off).take (off + 32 + R - off)) with
      | error e =>
        rw [hfb, exc_bind_error] at h
        injection h with he
        exact absurd (forkFromBytesC_error _ e hfb) (by rw [he]; simp)
      | ok f =>
        rw [hfb, exc_bind_ok] at h
        cases hrf : readForks plain R ks (off + 32 + R) with
        | error e =>
          rw [hrf, exc_bind_error] at h
          injection h with he
          exact ih (off + 32 + R) (by rw [hrf, he])
        | ok l =>
          rw [hrf, exc_bind_ok] at h
          exact Except.noConfusion h

/-- No out-of-range access happens as long as the input covers the
header plus the declared entry size (the bitmap read copies at most
what remains and every fork block is length-checked first). -/
theorem unmarshalC_no_oob (data : List Nat) (hlen : 64 ≤ data.length)
    (hR : 64 + (deobf data).getD 63 0 ≤ data.length) :
    unmarshalC data ≠ .error .oob := by
  unfold unmarshalC
  rw [if_neg (by omega)]
  intro h
  set plain := deobf data with hplaindef
  have hplen : plain.length = data.length := by
    rw [hplaindef]
    unfold deobf
    simp only [List.length_append, List.length_take, xorKeyFrom_length, List.length_drop]
    omega
  have hslice : sliceD plain 32 63 = .ok ((plain.drop 32).take (63 - 32)) := by
    unfold sliceD
    rw [if_pos ⟨by omega, by omega⟩]
  rw [hslice, exc_bind_ok] at h
  by_cases hv : ¬ (plain.drop 32).take (63 - 32) = version01HashBytes
  · rw [if_pos hv] at h
    simp at h
  · rw [if_neg hv] at h
    have hent : sliceD plain 64 (64 + plain.getD 63 0)
        = .ok ((plain.drop 64).take (64 + plain.getD 63 0 - 64)) := by
      unfold sliceD
      rw [if_pos ⟨by omega, by omega⟩]
    rw [hent, exc_bind_ok] at h
    have hbm : sliceD plain (64 + plain.getD 63 0) plain.length
        = .ok ((plain.drop (64 + plain.getD 63 0)).take
          (plain.length - (64 + plain.getD 63 0))) := by
      unfold sliceD
      rw [if_pos ⟨by omega, le_rfl⟩]
    rw [hbm, exc_bind_ok] at h
    cases hrf : readForks plain (plain.getD 63 0)
        (iterKeys (((plain.drop (64 + plain.getD 63 0)).take
          (plain.length - (64 + plain.getD 63 0)) ++ List.replicate 32 0).take 32))
        (64 + plain.getD 63 0 + 32) with
    | error e =>
      rw [hrf, exc_bind_error] at h
      injection h with he
      exact readForks_no_oob plain _ _ _ (by rw [hrf, he])
    | ok l =>
      rw [hrf, exc_bind_ok] at h
      exact Except.noConfusion h

/-- Length of the deobfuscation pass: unchanged, provided the input
covers the 32-byte key. -/
theorem deobf_length (data : List Nat) (h : 32 ≤ data.length) :
    (deobf data).length = data.length := by
  unfold deobf
  simp only [List.length_append, List.length_take, xorKeyFrom_length, List.length_drop]
  omega

/-- Version guard: any input of header length whose deobfuscated bytes
at offsets `[32..63)` differ from the version hash is rejected with
`Invalid`. -/
theorem unmarshalC_version_guard (data : List Nat) (hlen : 64 ≤ data.length)
    (hv : ((deobf data).drop 32).take 31 ≠ version01HashBytes) :
    unmarshalC data = .error .invalid := by
  have hplen : (deobf data).length = data.length := deobf_length data (by omega)
  unfold unmarshalC
  rw [if_neg (by omega)]
  have hslice : sliceD (deobf data) 32 63 = .ok (((deobf data).drop 32).take 31) := by
    unfold sliceD
    rw [if_pos ⟨by omega, by omega⟩]
  rw [hslice, exc_bind_ok]
  rw [if_pos hv]

/-- Pointwise reading of the XOR keystream pass. -/
theorem xorKeyFrom_getD (key : List Nat) :
    ∀ (i t : Nat) (bs : List Nat), t < bs.length →
      (xorKeyFrom key i bs).getD t 0
        = bs.getD t 0 ^^^ key.getD ((i + t) % 32 % key.length) 0 := by
  intro i t bs
  induction bs generalizing i t with
  | nil => intro ht; simp at ht
  | cons b bs ih =>
    intro ht
    cases t with
    | zero => simp [xorKeyFrom]
    | succ t =>
      simp only [xorKeyFrom, List.getD_cons_succ, List.length_cons] at ht ⊢
      rw [ih (i + 1) t (by omega)]
      have harith : i + 1 + t = i + (t + 1) := by omega
      rw [harith]

/-- Setting one byte of the input past the key region changes exactly
the corresponding byte of the deobfuscated stream (XORed with its
keystream byte). -/
theorem deobf_set (data : List Nat) (i v : Nat) (h32 : 32 ≤ i) (hi : i < data.length) :
    deobf (data.set i v)
      = data.take 32 ++ ((xorKeyFrom (data.take 32) 0 (data.drop 32)).set (i - 32)
          (v ^^^ (data.take 32).getD ((i - 32) % 32 % (data.take 32).length) 0)) := by
  unfold deobf
  have htake : (data.set i v).take 32 = data.take 32 := by
    rw [List.set_take, List.set_eq_of_length_le]
    simp only [List.length_take]
    omega
  have hdrop : (data.set i v).drop 32 = (data.drop 32).set (i - 32) v := by
    rw [List.drop_set, if_neg (by omega)]
  rw [htake, hdrop,
    xorKeyFrom_set (data.take 32) 0 (i - 32) v (data.drop 32)
      (by simp only [List.length_drop]; omega)]
  simp only [Nat.zero_add]

/-- Flipping any single bit of the version-hash region of an input
whose version check passes makes `UnmarshalBinary` fail with the
version error. -/
theorem unmarshalC_bitflip (data : List Nat) (i j : Nat)
    (hlen : 64 ≤ data.length) (hi1 : 32 ≤ i) (hi2 : i < 63) (hj : j < 8)
    (hv : ((deobf data).drop 32).take 31 = version01HashBytes) :
    unmarshalC (data.set i (data.getD i 0 ^^^ 2 ^ j)) = .error .invalid := by
  apply unmarshalC_version_guard
  · rw [List.length_set]; omega
  · rw [deobf_set data i _ hi1 (by omega)]
    have hkl : (data.take 32).length = 32 := by
      rw [List.length_take]; omega
    rw [List.drop_left' hkl]
    have hdd : (deobf data).drop 32 = xorKeyFrom (data.take 32) 0 (data.drop 32) := by
      unfold deobf
      exact List.drop_left' hkl
    rw [hdd] at hv
    rw [List.set_take, ← hv]
    intro heq
    have htl : (xorKeyFrom (data.take 32) 0 (data.drop 32)).length
        = data.length - 32 := by
      rw [xorKeyFrom_length, List.length_drop]
    have hlt : i - 32 < ((xorKeyFrom (data.take 32) 0 (data.drop 32)).take 31).length := by
      simp only [List.length_take, htl]
      omega
    have hget := congrArg (fun l : List Nat => l[i - 32]?) heq
    simp only [List.getElem?_set_self hlt,
      List.getElem?_take_of_lt (by omega : i - 32 < 31)] at hget
    have hw : data.getD i 0 ^^^ 2 ^ j ^^^ (data.take 32).getD ((i - 32) % 32
        % (data.take 32).length) 0
          = (xorKeyFrom (data.take 32) 0 (data.drop 32)).getD (i - 32) 0 := by
      conv_rhs => rw [List.getD_eq_getElem?_getD]
      rw [← hget]
      rfl
    rw [xorKeyFrom_getD (data.take 32) 0 (i - 32) (data.drop 32)
      (by simp only [List.length_drop]; omega)] at hw
    simp only [Nat.zero_add] at hw
    have hdg : (data.drop 32).getD (i - 32) 0 = data.getD i 0 := by
      simp only [List.getD_eq_getElem?_getD, List.getElem?_drop]
      rw [show 32 + (i - 32) = i from by omega]
    rw [hdg] at hw
    have hcancel := congrArg (fun x => x ^^^ (data.take 32).getD ((i - 32) % 32
        % (data.take 32).length) 0) hw
    simp only [Nat.xor_cancel_right] at hcancel
    have hzero := congrArg (fun x => data.getD i 0 ^^^ x) hcancel
    simp only [← Nat.xor_assoc, Nat.xor_self, Nat.zero_xor] at hzero
    exact absurd hzero (Nat.ne_of_gt (Nat.two_pow_pos j))

/-!
The fresh leaf attached by `Add` for a new short path: its `Value`
flag and its entry.
-/

theorem isValueType_newLeaf (path entry : List Nat) :
    (newLeaf path entry).isValueType = true := by
  unfold newLeaf updateWPS
  cases path.findIdx? (fun b => b == pathSeparator) <;> simp only []
  · simp [makeNotWithPathSeparator, makeValue, Node.isValueType, nodeTypeMask,
      nodeTypeWithPathSeparator, nodeTypeValue]
    decide
  · split
    · simp [makeWithPathSeparator, makeValue, Node.isValueType,
        nodeTypeWithPathSeparator, nodeTypeValue]
      decide
    · simp [makeNotWithPathSeparator, makeValue, Node.isValueType, nodeTypeMask,
        nodeTypeWithPathSeparator, nodeTypeValue]
      decide

/-!
The ten claims.
-/

/-- C1: Add/Lookup round-trip — for every sequence of `Add` calls on a
fresh root with pairwise-distinct paths `p_i` and entries `e_i`, after
all adds complete `Lookup p_i` returns `e_i` for every `i`. -/
theorem claim_C1 (ps : List (List Nat × List Nat)) (p e : List Nat)
    (hmem : (p, e) ∈ ps) (hnodup : (ps.map Prod.fst).Nodup) :
    lookupE (buildTrie ps) p = some e :=
  buildTrie_lookup ps p e hmem hnodup

theorem claim_C1_witness :
    (([97], [1]) ∈ [([97], [1]), ([97, 98], [2])] ∧
      ([([97], [1]), ([97, 98], [2])].map Prod.fst).Nodup) ∧
    lookupE (buildTrie [([97], [1]), ([97, 98], [2])]) [97] = some [1] :=
  ⟨⟨by decide, by decide⟩,
   claim_C1 [([97], [1]), ([97, 98], [2])] [97] [1] (by decide) (by decide)⟩

/-- C2 (corrected): `Remove p` deletes the whole fork whose prefix
completes `p`, so every added path extending `p` is removed with it;
paths that do not extend `p` keep their entries.  The claim's statement
— only `p` is removed — fails on `{aa, aaaa}`. -/
theorem claim_C2 (n : Node) (p : List Nat) (m : Node) (hwf : wfB n = true)
    (hne : p ≠ []) (hlook : lookupN n p = some m) :
    ∃ n2, removeE n p = .ok n2 ∧ wfB n2 = true ∧
      ∀ q, lookupE n2 q = if p <+: q then none else lookupE n q := by
  obtain ⟨n2, hok, hwf2, _, hq⟩ := removeF_spec p.length n p m hwf le_rfl hne hlook
  exact ⟨n2, hok, hwf2, hq⟩

theorem claim_C2_witness :
    wfB trieC2 = true ∧ lookupN trieC2 [97, 97] = some nodeC2m ∧
      ∃ n2, removeE trieC2 [97, 97] = .ok n2 ∧ wfB n2 = true ∧
        ∀ q, lookupE n2 q = if [97, 97] <+: q then none else lookupE trieC2 q :=
  ⟨by decide, rfl, claim_C2 trieC2 [97, 97] nodeC2m (by decide) (by decide) rfl⟩

theorem claim_C2_counterexample :
    lookupE trieC2 [97, 97, 97, 97] = some [2] ∧
    (removeE trieC2 [97, 97]).map (fun n2 => lookupE n2 [97, 97, 97, 97])
      = .ok none := by
  exact ⟨rfl, rfl⟩

/-- C3 (corrected): marshal/unmarshal round-trip on nodes within the
wire format's own limits — 32-byte obfuscation key, `ref_bytes_size`
at most 255, entry of that length, fork keys below 256, fork prefixes
of 1 to 30 bytes, child references of `ref_bytes_size` bytes.  The
entry, the fork keys and each fork's prefix and child reference
survive; the unmarshalled node's `refBytesSize` field is 0 because
`UnmarshalBinary` never assigns the receiver's field.  Without the
30-byte prefix bound the round-trip fails (`Add` creates prefixes up
to 32 bytes, which marshal, but unmarshal then rejects). -/
theorem claim_C3 (n : NodeC) (fks : List (Nat × ForkC)) (bs : List Nat)
    (hforks : n.forks = some fks) (hkey : n.obfuscationKey.length = 32)
    (hR : n.refBytesSize ≤ 255) (hent : n.entry.length = n.refBytesSize)
    (hkeys : ∀ kf ∈ fks, kf.1 < 256)
    (hpfx : ∀ kf ∈ fks, 1 ≤ kf.2.pfx.length ∧ kf.2.pfx.length ≤ 30)
    (href : ∀ kf ∈ fks, kf.2.childRef.length = n.refBytesSize)
    (hm : marshalC n = .ok bs) :
    ∃ fks2, unmarshalC bs = .ok ⟨n.obfuscationKey, 0, n.entry, some fks2⟩ ∧
      ∀ k, findA fks2 k = findA fks k :=
  marshalC_roundtrip n fks bs hforks hkey hR hent hkeys hpfx href hm

set_option maxRecDepth 40000 in
theorem claim_C3_witness :
    marshalC nodeC3good = .ok bsC3good ∧
      ∃ fks2, unmarshalC bsC3good
          = .ok ⟨nodeC3good.obfuscationKey, 0, nodeC3good.entry, some fks2⟩ ∧
        ∀ k, findA fks2 k = findA [(97, (⟨[97, 98], 2, [5]⟩ : ForkC))] k :=
  ⟨rfl, claim_C3 nodeC3good [(97, ⟨[97, 98], 2, [5]⟩)] bsC3good rfl (by decide)
    (by decide) (by decide) (by decide) (by decide) (by decide) rfl⟩

set_option maxRecDepth 40000 in
theorem claim_C3_counterexample :
    marshalC nodeC3bad = .ok bsC3bad ∧ unmarshalC bsC3bad = .error .invalid :=
  ⟨rfl, rfl⟩

/-- C4 (corrected): `Add` clears the stored reference only on an empty
path (the terminal node itself); on a non-empty path it leaves the
receiver's reference untouched, and `Remove` never clears it.  The
claim — the reference is cleared on every node of the root-to-
modification path after every successful Add/Remove — fails already at
the root. -/
theorem claim_C4 (n n2 : Node) (e p : List Nat) (b : Nat) (p0 : List Nat)
    (fuel : Nat) (hrem : removeF fuel n p = .ok n2) :
    (add n [] e).ref = none ∧ (add n (b :: p0) e).ref = n.ref ∧ n2.ref = n.ref :=
  ⟨add_nil_ref n e, add_cons_ref n b p0 e, removeF_ok_ref fuel n n2 p hrem⟩

theorem claim_C4_witness :
    removeF 1 trieC4 [97] = .ok nodeC4r ∧
      ((add trieC4 [] [2]).ref = none ∧ (add trieC4 [97, 98] [2]).ref = trieC4.ref ∧
        nodeC4r.ref = trieC4.ref) :=
  ⟨rfl, claim_C4 trieC4 nodeC4r [2] [97] 97 [98] 1 rfl⟩

theorem claim_C4_counterexample :
    (add nodeC4 [97] [1]).ref = some [9] ∧ nodeC4.ref = some [9] := by
  exact ⟨rfl, rfl⟩

set_option maxRecDepth 40000 in
/-- C5 (code bug): `Node.save` assigns `n.forks = nil` even when the
saver fails (it only sends the error), so a failed `Save` is not
atomic: on `{a ↦ [1], ab ↦ [2]}` with a saver failing exactly on the
interior node's bytes, `Save` reports the error, yet afterwards the
lookup of `ab` finds nothing while `a` still resolves — the trie is
left in a state that is neither the pre-Save state nor a consistent
one. -/
theorem claim_C5 :
    (saveRoot sigmaC5 trieC5).2 = true ∧
      lookupE trieC5 [97, 98] = some [2] ∧
      lookupE (saveRoot sigmaC5 trieC5).1 [97, 98] = none ∧
      lookupE (saveRoot sigmaC5 trieC5).1 [97] = some [1] := by
  exact ⟨rfl, rfl, rfl, rfl⟩

/-- C6 (corrected): the code's fork-prefix limit is 32
(`nodePrefixMaxSize` of the non-obfuscated codec), not the 30 bytes the
spec states: after `Add`, every fork prefix has length at most 32, and
an `Add` whose remaining path exceeds 32 bytes chains through an
intermediate node under a fork carrying exactly the first 32 bytes.  A
31-byte path yields a 31-byte prefix, refuting the claimed bound of
30. -/
theorem claim_C6 (n : Node) (b : Nat) (p0 e : List Nat) (hwf : wfB n = true)
    (hb : boundB 32 n = true) (hf : findFork n.forks b = none)
    (hl : 32 < (b :: p0).length) :
    boundB 32 (add n (b :: p0) e) = true ∧
      ∃ child, findFork (add n (b :: p0) e).forks b = some ((b :: p0).take 32, child) ∧
        lookupE child ((b :: p0).drop 32) = some e :=
  ⟨boundB_addF (b :: p0).length n (b :: p0) e hwf hb, add_chain n b p0 e hwf hf hl⟩

theorem claim_C6_witness :
    wfB newNode = true ∧ boundB 32 newNode = true ∧
      findFork newNode.forks 97 = none ∧ 32 < (97 :: List.replicate 32 97).length ∧
      (boundB 32 (add newNode (97 :: List.replicate 32 97) [5]) = true ∧
        ∃ child, findFork (add newNode (97 :: List.replicate 32 97) [5]).forks 97
            = some ((97 :: List.replicate 32 97).take 32, child) ∧
          lookupE child ((97 :: List.replicate 32 97).drop 32) = some [5]) :=
  ⟨rfl, rfl, rfl, by decide,
   claim_C6 newNode 97 (List.replicate 32 97) [5] rfl rfl rfl (by decide)⟩

theorem claim_C6_counterexample :
    (findFork (add newNode pathC6 [1]).forks 97).map (fun pc => pc.1.length)
        = some 31 ∧
      boundB 30 (add newNode pathC6 [1]) = false := by
  exact ⟨rfl, rfl⟩

/-- C7 (corrected): when `Add` reaches a node with the remaining path
empty it overwrites the entry and clears the reference but does NOT
set the `Value` flag — the node's type is unchanged (`Add` on an empty
path at the root leaves a fresh root's type 0, so the flag does not
reflect the stored entry).  The `Value` flag is set on the newly
created leaf when a fresh short path is attached as a fork. -/
theorem claim_C7 (n : Node) (e : List Nat) (b : Nat) (p0 : List Nat)
    (hf : findFork n.forks b = none) (hlen : ¬ 32 < (b :: p0).length) :
    (add n [] e).entry = e ∧ (add n [] e).ref = none ∧
      (add n [] e).nodeType = n.nodeType ∧
      ∃ child, findFork (add n (b :: p0) e).forks b = some (b :: p0, child) ∧
        child.isValueType = true ∧ child.entry = e := by
  cases n with | mk t nc r e0 fks =>
  refine ⟨?_, ?_, ?_, ?_⟩
  · rw [add, addF_nil]; rfl
  · exact add_nil_ref _ e
  · rw [add, addF_nil]; rfl
  · rw [add]
    show ∃ child,
      findFork (addF (p0.length + 1) (.mk t nc r e0 fks) (b :: p0) e).forks b
        = some (b :: p0, child) ∧ child.isValueType = true ∧ child.entry = e
    rw [addF_succ_none_short p0.length t nc r e0 e fks b p0 hf hlen]
    exact ⟨newLeaf (b :: p0) e,
      by simp only [makeEdge, forks_mk, findFork_setFork_self],
      isValueType_newLeaf _ _, entry_newLeaf _ _⟩

theorem claim_C7_witness :
    findFork newNode.forks 97 = none ∧ ¬ 32 < ([97] : List Nat).length ∧
      ((add newNode [] [5]).entry = [5] ∧ (add newNode [] [5]).ref = none ∧
        (add newNode [] [5]).nodeType = newNode.nodeType ∧
        ∃ child, findFork (add newNode [97] [5]).forks 97 = some ([97], child) ∧
          child.isValueType = true ∧ child.entry = [5]) :=
  ⟨rfl, by decide, claim_C7 newNode [5] 97 [] rfl (by decide)⟩

theorem claim_C7_counterexample :
    (add newNode [] [5]).entry = [5] ∧ (add newNode [] [5]).isValueType = false := by
  exact ⟨rfl, rfl⟩

/-- C8: version guard — `UnmarshalBinary` rejects with the version
error every input (of at least header length) whose deobfuscated bytes
at offsets `[32..63)` differ from the fixed version hash, the check
running after the XOR pass keyed by the input's first 32 bytes; in
particular any single-bit alteration inside the version-hash region of
an input that passes the check makes unmarshalling fail. -/
theorem claim_C8 (data : List Nat) (i j : Nat) (hlen : 64 ≤ data.length)
    (hi1 : 32 ≤ i) (hi2 : i < 63) (hj : j < 8) :
    (((deobf data).drop 32).take 31 ≠ version01HashBytes →
      unmarshalC data = .error .invalid) ∧
    (((deobf data).drop 32).take 31 = version01HashBytes →
      unmarshalC (data.set i (data.getD i 0 ^^^ 2 ^ j)) = .error .invalid) :=
  ⟨unmarshalC_version_guard data hlen,
   unmarshalC_bitflip data i j hlen hi1 hi2 hj⟩

theorem claim_C8_witness :
    64 ≤ dataC8.length ∧
      ((((deobf dataC8).drop 32).take 31 ≠ version01HashBytes →
          unmarshalC dataC8 = .error .invalid) ∧
        (((deobf dataC8).drop 32).take 31 = version01HashBytes →
          unmarshalC (dataC8.set 32 (dataC8.getD 32 0 ^^^ 2 ^ 0))
            = .error .invalid)) :=
  ⟨by decide, claim_C8 dataC8 32 0 (by decide) (by decide) (by decide) (by decide)⟩

/-- C9 (corrected): `UnmarshalBinary` returns `TooShort` for inputs of
fewer than 64 bytes, and performs no out-of-range access provided the
input also covers the declared entry region (64 plus the deobfuscated
byte at offset 63); but the entry read `data[64 : 64+refBytesSize]` is
not length-checked, so inputs with a valid 64-byte header and fewer
than `64 + refBytesSize` bytes are read out of range (a Go slice
panic), refuting the claim's totality. -/
theorem claim_C9 (data : List Nat) :
    (data.length < 64 → unmarshalC data = .error .tooShort) ∧
    (64 ≤ data.length → 64 + (deobf data).getD 63 0 ≤ data.length →
      unmarshalC data ≠ .error .oob) :=
  ⟨unmarshalC_tooShort data, fun h1 h2 => unmarshalC_no_oob data h1 h2⟩

theorem claim_C9_witness :
    unmarshalC [1, 2, 3] = .error .tooShort ∧ unmarshalC dataC8 ≠ .error .oob :=
  ⟨(claim_C9 [1, 2, 3]).1 (by decide), (claim_C9 dataC8).2 (by decide) (by decide)⟩

theorem claim_C9_counterexample : unmarshalC dataC9 = .error .oob := rfl

/-- C10: `Lookup` of a path that ends exactly at an interior branch
node returns that node's (empty) entry rather than NotFound, and
`Lookup` never consults the node-type flags: erasing every type
bitmask in the trie leaves every lookup unchanged.  On `{aab, aac}`
the never-added path `aa` resolves to `some []`. -/
theorem claim_C10 (n : Node) (q : List Nat) :
    lookupE (stripN n) q = lookupE n q ∧ lookupE trie10 [97, 97] = some [] :=
  ⟨lookupE_stripN n q, by decide⟩
